import Mathlib

/-!
Verification of the request-building and optimistic-concurrency core of the
dynamodb-ts-model repository (src/DynamoModel.ts, src/requests.ts, src/utils.ts,
src/DynamoTransaction.ts, src/DynamoBatch.ts) against its natural-language
specification.

Conventions of the shallow embedding:
- JavaScript strings are `List Char` (`Str`).
- JavaScript attribute values are modelled by the inductive type `JVal`
  (string, integer number, boolean, null).  `undefined` is modelled by
  `Option` at every site where the source distinguishes it.
- A JavaScript object is an association list `Obj` in property-insertion
  order, as JSON.stringify and Object.assign observe it.
- In-place mutation of caller-supplied objects is modelled by an explicit
  heap `Heap := Nat → Obj` with object references `Nat`.
-/

abbrev Str := List Char

/-- A JavaScript attribute value: string, number (modelled as an integer),
boolean or null. -/
inductive JVal where
  | str (s : Str)
  | num (n : Int)
  | bool (b : Bool)
  | null
  deriving DecidableEq

/-- A JavaScript object: association list of properties in insertion order. -/
abbrev Obj := List (Str × JVal)

/-- Property lookup, first (and in a real JS object, only) occurrence. -/
def lookupJ : Obj → Str → Option JVal
  | [], _ => none
  | (k, v) :: rest, a => if k = a then some v else lookupJ rest a

/-- Value of the last occurrence of a property in an association list. -/
def lookupLast : Obj → Str → Option JVal
  | [], _ => none
  | (k, v) :: rest, a =>
    match lookupLast rest a with
    | some w => some w
    | none => if k = a then some v else none

/-- Setting a property on a JS object: an existing property keeps its
position and gets the new value, a fresh property is appended. -/
def setKey : Obj → Str → JVal → Obj
  | [], a, v => [(a, v)]
  | (k, w) :: rest, a, v =>
    if k = a then (k, v) :: rest else (k, w) :: setKey rest a v

/-- One step of Object.assign(target, src): copy every property of `src`
onto `target` in order. -/
def objAssign (target src : Obj) : Obj :=
  src.foldl (fun t kv => setKey t kv.1 kv.2) target

/-- Object.assign(target, ...srcs). -/
def assignAll (target : Obj) (srcs : List Obj) : Obj :=
  srcs.foldl objAssign target

/-- The property names of an object. -/
def objKeys (o : Obj) : List Str := o.map Prod.fst

/-- A real JS object has no duplicate property names. -/
def NodupKeys (o : Obj) : Prop := (objKeys o).Nodup

instance (o : Obj) : Decidable (NodupKeys o) :=
  inferInstanceAs (Decidable (objKeys o).Nodup)

/-- From src/requests.ts createPutRequest: the stored item is
Object.assign(item, ...model.params.creators.map(creator => creator(item))).
Every creator receives the original caller item (the map runs before the
assign), and the outputs are merged onto the item left to right. -/
def putFullItem (creators : List (Obj → Obj)) (item : Obj) : Obj :=
  assignAll item (creators.map (fun creator => creator item))

/-- From src/requests.ts createUpdateRequest: the merged attribute set is
Object.assign(attributes, ...model.params.updaters.map(u => u(attributes))). -/
def updateFullAttributes (updaters : List (Obj → Obj)) (attributes : Obj) : Obj :=
  assignAll attributes (updaters.map (fun updater => updater attributes))

abbrev Heap := Nat → Obj

def hUpdate (h : Heap) (r : Nat) (o : Obj) : Heap :=
  fun x => if x = r then o else h x

/-- The put request payload: TableName, the Item reference (Object.assign
returns its target, so the request's Item is the caller's object itself). -/
structure PutRequestH where
  tableName : Str
  itemRef : Nat

/-- From src/requests.ts createPutRequest, heap version: mutates the caller's
item object in place with the merged creator outputs and returns a request
whose Item is that same object. -/
def createPutRequestH (tableName : Str) (creators : List (Obj → Obj))
    (h : Heap) (itemRef : Nat) : Heap × PutRequestH :=
  let item := h itemRef
  let fullItem := putFullItem creators item
  (hUpdate h itemRef fullItem, ⟨tableName, itemRef⟩)

structure UpdateRequestH where
  tableName : Str
  keyRef : Nat
  attributesRef : Nat

/-- From src/requests.ts createUpdateRequest, heap version: mutates the
caller's attributes object in place with the merged updater outputs. -/
def createUpdateRequestH (tableName : Str) (updaters : List (Obj → Obj))
    (h : Heap) (keyRef attributesRef : Nat) : Heap × UpdateRequestH :=
  let attributes := h attributesRef
  (hUpdate h attributesRef (updateFullAttributes updaters attributes),
    ⟨tableName, keyRef, attributesRef⟩)

/-- Converter pipeline (DynamoModel.convertItem): every converter runs over
the item in registration order, mutating it; value-level composition. -/
def applyConverters (converters : List (Obj → Obj)) (item : Obj) : Obj :=
  converters.foldl (fun it c => c it) item

structure PutResultH where
  itemRef : Nat

/-- From src/DynamoModel.ts put: builds the put request (mutating
params.item), sends it, converts params.item in place, and returns it as
result.item. -/
def modelPutH (tableName : Str) (creators converters : List (Obj → Obj))
    (h : Heap) (itemRef : Nat) : Heap × PutRequestH × PutResultH :=
  let (h1, req) := createPutRequestH tableName creators h itemRef
  let h2 := hUpdate h1 itemRef (applyConverters converters (h1 itemRef))
  (h2, req, ⟨itemRef⟩)

def lbrace : Char := Char.ofNat 123

def rbrace : Char := Char.ofNat 125

def digitChar (d : Nat) : Char := Char.ofNat (48 + d)

def charDigitVal (c : Char) : Nat := c.toNat - 48

def printNat (n : Nat) : Str :=
  if n = 0 then ['0'] else (Nat.digits 10 n).reverse.map digitChar

def printInt (n : Int) : Str :=
  if n < 0 then '-' :: printNat n.natAbs else printNat n.natAbs

def escChar (c : Char) : Str :=
  if c = '"' then ['\\', '"'] else if c = '\\' then ['\\', '\\'] else [c]

def escStr : Str → Str
  | [] => []
  | c :: rest => escChar c ++ escStr rest

def printQStr (s : Str) : Str := '"' :: (escStr s ++ ['"'])

def printJVal : JVal → Str
  | .str s => printQStr s
  | .num n => printInt n
  | .bool true => ['t', 'r', 'u', 'e']
  | .bool false => ['f', 'a', 'l', 's', 'e']
  | .null => ['n', 'u', 'l', 'l']

def printPair (p : Str × JVal) : Str := printQStr p.1 ++ ':' :: printJVal p.2

def printMembers : (Str × JVal) → Obj → Str
  | p, [] => printPair p ++ [rbrace]
  | p, q :: qs => printPair p ++ ',' :: printMembers q qs

/-- JSON.stringify of a flat object, insertion order, no whitespace. -/
def printObj : Obj → Str
  | [] => [lbrace, rbrace]
  | p :: ps => lbrace :: printMembers p ps

def parseNatChars (cs : Str) : Option (Nat × Str) :=
  let ds := cs.takeWhile Char.isDigit
  let rest := cs.dropWhile Char.isDigit
  if ds = [] then none
  else some (ds.foldl (fun a c => 10 * a + charDigitVal c) 0, rest)

def parseIntChars : Str → Option (Int × Str)
  | [] => none
  | c :: rest =>
    if c = '-' then (parseNatChars rest).map (fun p => (-(p.1 : Int), p.2))
    else (parseNatChars (c :: rest)).map (fun p => ((p.1 : Int), p.2))

def parseQStrBody : Str → Option (Str × Str)
  | [] => none
  | c :: rest =>
    if c = '"' then some ([], rest)
    else if c = '\\' then
      match rest with
      | [] => none
      | e :: rest2 =>
        if e = '"' ∨ e = '\\' then
          (parseQStrBody rest2).map (fun p => (e :: p.1, p.2))
        else none
    else (parseQStrBody rest).map (fun p => (c :: p.1, p.2))

def parseJVal (cs : Str) : Option (JVal × Str) :=
  match cs with
  | [] => none
  | c :: rest =>
    if c = '"' then (parseQStrBody rest).map (fun p => (JVal.str p.1, p.2))
    else if c = 'n' then
      match rest with
      | 'u' :: 'l' :: 'l' :: r => some (JVal.null, r)
      | _ => none
    else if c = 't' then
      match rest with
      | 'r' :: 'u' :: 'e' :: r => some (JVal.bool true, r)
      | _ => none
    else if c = 'f' then
      match rest with
      | 'a' :: 'l' :: 's' :: 'e' :: r => some (JVal.bool false, r)
      | _ => none
    else (parseIntChars (c :: rest)).map (fun p => (JVal.num p.1, p.2))

def parsePair (cs : Str) : Option ((Str × JVal) × Str) :=
  match cs with
  | [] => none
  | c :: rest =>
    if c = '"' then
      match parseQStrBody rest with
      | none => none
      | some (k, r1) =>
        match r1 with
        | ':' :: r2 =>
          match parseJVal r2 with
          | none => none
          | some (v, r3) => some ((k, v), r3)
        | _ => none
    else none

def parseMembers : Nat → Str → Option (Obj × Str)
  | 0, _ => none
  | fuel + 1, cs =>
    match parsePair cs with
    | none => none
    | some (p, r1) =>
      match r1 with
      | [] => none
      | c :: r2 =>
        if c = ',' then
          match parseMembers fuel r2 with
          | none => none
          | some (ps, r3) => some (p :: ps, r3)
        else if c = rbrace then some ([p], r2)
        else none

def parseObjPrefix (cs : Str) : Option (Obj × Str) :=
  match cs with
  | [] => none
  | c :: rest =>
    if c = lbrace then
      match rest with
      | [] => none
      | d :: r2 => if d = rbrace then some ([], r2) else parseMembers rest.length rest
    else none

/-- JSON.parse of a flat object: the whole input must be consumed. -/
def jsonParseObj (cs : Str) : Option Obj :=
  match parseObjPrefix cs with
  | some (o, []) => some o
  | _ => none

/-- UTF-8 encoding of one unicode scalar value. -/
def utf8Char (c : Char) : List Nat :=
  let n := c.toNat
  if n < 128 then [n]
  else if n < 2048 then [192 + n / 64, 128 + n % 64]
  else if n < 65536 then [224 + n / 4096, 128 + n / 64 % 64, 128 + n % 64]
  else [240 + n / 262144, 128 + n / 4096 % 64, 128 + n / 64 % 64, 128 + n % 64]

def utf8Str : Str → List Nat
  | [] => []
  | c :: rest => utf8Char c ++ utf8Str rest

/-- Decoding of a single UTF-8 sequence: the lead byte, the remaining input,
and on success the decoded scalar with the input left over. -/
def utf8DecodeOne (b : Nat) (rest : List Nat) : Option (Char × List Nat) :=
  if b < 128 then some (Char.ofNat b, rest)
  else if b < 192 then none
  else if b < 224 then
    match rest with
    | [] => none
    | b2 :: r =>
      if 128 ≤ b2 ∧ b2 < 192 then
        some (Char.ofNat ((b - 192) * 64 + (b2 - 128)), r)
      else none
  else if b < 240 then
    match rest with
    | b2 :: b3 :: r =>
      if (128 ≤ b2 ∧ b2 < 192) ∧ (128 ≤ b3 ∧ b3 < 192) then
        some (Char.ofNat ((b - 224) * 4096 + (b2 - 128) * 64 + (b3 - 128)), r)
      else none
    | _ => none
  else if b < 248 then
    match rest with
    | b2 :: b3 :: b4 :: r =>
      if (128 ≤ b2 ∧ b2 < 192) ∧ (128 ≤ b3 ∧ b3 < 192) ∧ (128 ≤ b4 ∧ b4 < 192) then
        some (Char.ofNat ((b - 240) * 262144 + (b2 - 128) * 4096 +
          (b3 - 128) * 64 + (b4 - 128)), r)
      else none
    | _ => none
  else none

def utf8DecGo : Nat → List Nat → Option Str
  | _, [] => some []
  | 0, _ :: _ => none
  | fuel + 1, b :: rest =>
    match utf8DecodeOne b rest with
    | none => none
    | some (c, r) => (utf8DecGo fuel r).map (fun cs => c :: cs)

/-- UTF-8 decoding of a byte list (each decoded sequence consumes at least
one byte, so the input length is enough fuel). -/
def utf8Dec (bs : List Nat) : Option Str := utf8DecGo bs.length bs

def b64Alphabet : Str :=
  ['A', 'B', 'C', 'D', 'E', 'F', 'G', 'H', 'I', 'J', 'K', 'L', 'M',
   'N', 'O', 'P', 'Q', 'R', 'S', 'T', 'U', 'V', 'W', 'X', 'Y', 'Z',
   'a', 'b', 'c', 'd', 'e', 'f', 'g', 'h', 'i', 'j', 'k', 'l', 'm',
   'n', 'o', 'p', 'q', 'r', 's', 't', 'u', 'v', 'w', 'x', 'y', 'z',
   '0', '1', '2', '3', '4', '5', '6', '7', '8', '9', '+', '/']

def b64Char (n : Nat) : Char := b64Alphabet.getD n 'A'

def indexIn : Str → Char → Option Nat
  | [], _ => none
  | a :: rest, c => if a = c then some 0 else (indexIn rest c).map (· + 1)

def b64Index (c : Char) : Option Nat := indexIn b64Alphabet c

def b64Enc : List Nat → Str
  | [] => []
  | [b1] => [b64Char (b1 / 4), b64Char (b1 % 4 * 16), '=', '=']
  | [b1, b2] => [b64Char (b1 / 4), b64Char (b1 % 4 * 16 + b2 / 16), b64Char (b2 % 16 * 4), '=']
  | b1 :: b2 :: b3 :: rest =>
    b64Char (b1 / 4) :: b64Char (b1 % 4 * 16 + b2 / 16) ::
      b64Char (b2 % 16 * 4 + b3 / 64) :: b64Char (b3 % 64) :: b64Enc rest

def b64Dec : Str → Option (List Nat)
  | [] => some []
  | c1 :: c2 :: c3 :: c4 :: rest =>
    if c3 = '=' then
      if c4 = '=' ∧ rest = [] then
        match b64Index c1, b64Index c2 with
        | some s1, some s2 => some [s1 * 4 + s2 / 16]
        | _, _ => none
      else none
    else if c4 = '=' then
      if rest = [] then
        match b64Index c1, b64Index c2, b64Index c3 with
        | some s1, some s2, some s3 => some [s1 * 4 + s2 / 16, s2 % 16 * 16 + s3 / 4]
        | _, _, _ => none
      else none
    else
      match b64Index c1, b64Index c2, b64Index c3, b64Index c4, b64Dec rest with
      | some s1, some s2, some s3, some s4, some tail =>
        some ((s1 * 4 + s2 / 16) :: (s2 % 16 * 16 + s3 / 4) :: (s3 % 4 * 64 + s4) :: tail)
      | _, _, _, _, _ => none
  | _ => none

/-- From src/utils.ts formatPageToken: undefined maps to undefined, a key
object maps to base64(utf8(JSON.stringify(key))). -/
def formatPageToken (lastKey : Option Obj) : Option Str :=
  lastKey.map (fun kv => b64Enc (utf8Str (printObj kv)))

/-- From src/utils.ts parsePageToken: a missing (or empty, hence falsy)
token yields no start key; otherwise the token is base64-decoded and
JSON-parsed.  The outer `none` models a thrown JSON.parse error. -/
def parsePageToken (pageToken : Option Str) : Option (Option Obj) :=
  match pageToken with
  | none => some none
  | some [] => some none
  | some s =>
    match b64Dec s with
    | none => none
    | some bytes =>
      match utf8Dec bytes with
      | none => none
      | some cs => (jsonParseObj cs).map some

/-!
Round-trip lemmas: parsing what the printer emitted gives back the value and
leaves exactly the trailing input.
-/

/-- Input that does not begin with a decimal digit (what follows a printed
number inside a JSON document). -/
def NoDigitStart (rest : Str) : Prop :=
  ∀ c, rest.head? = some c → c.isDigit = false

/-- Strings without control characters: on these JSON.stringify escapes only
quote and backslash, which is the region where `printObj` is faithful to the
JavaScript builtin. -/
def validStr (s : Str) : Prop := ∀ c ∈ s, 32 ≤ c.toNat

def validVal : JVal → Prop
  | .str s => validStr s
  | _ => True

/-- A key-attribute map whose names and string values carry no control
characters. -/
def validKey (kv : Obj) : Prop := ∀ p ∈ kv, validStr p.1 ∧ validVal p.2

instance (s : Str) : Decidable (validStr s) :=
  inferInstanceAs (Decidable (∀ c ∈ s, 32 ≤ c.toNat))

instance (v : JVal) : Decidable (validVal v) :=
  match v with
  | .str s => inferInstanceAs (Decidable (validStr s))
  | .num _ => inferInstanceAs (Decidable True)
  | .bool _ => inferInstanceAs (Decidable True)
  | .null => inferInstanceAs (Decidable True)

instance (kv : Obj) : Decidable (validKey kv) :=
  inferInstanceAs (Decidable (∀ p ∈ kv, validStr p.1 ∧ validVal p.2))

/-- One page returned by DynamoModel.scan / DynamoModel.query: the converted
items and the formatted nextPageToken (present iff the store reported more
data). -/
structure PageResult (α : Type) where
  items : List α
  nextPageToken : Option Str
  deriving DecidableEq

/-- From src/DynamoModel.ts scanIterator: copy the params, then repeatedly
call this.scan, yield every item of the page, feed the returned nextPageToken
back into the params, and loop while a token is present.  The underlying
`this.scan` is abstracted as a function from the current page token to the
page it returns; the do-while loop is fuel-indexed. -/
def scanIterate {α : Type} (scan : Option Str → PageResult α) :
    Nat → Option Str → List α
  | 0, _ => []
  | fuel + 1, tok =>
    let page := scan tok
    page.items ++
      (match page.nextPageToken with
       | none => []
       | some t => scanIterate scan fuel (some t))

/-- From src/DynamoModel.ts queryIterator: same loop over this.query. -/
def queryIterate {α : Type} (query : Option Str → PageResult α) :
    Nat → Option Str → List α
  | 0, _ => []
  | fuel + 1, tok =>
    let page := query tok
    page.items ++
      (match page.nextPageToken with
       | none => []
       | some t => queryIterate query fuel (some t))

/-- The store returns, starting from the given token, exactly this finite
chain of pages: each page is fetched with the previous page's token and only
the last page carries no next-page token. -/
def PageChain {α : Type} (scan : Option Str → PageResult α) :
    Option Str → List (PageResult α) → Prop
  | _, [] => False
  | tok, [p] => scan tok = p ∧ p.nextPageToken = none
  | tok, p :: q :: rest =>
    scan tok = p ∧ ∃ t, p.nextPageToken = some t ∧ PageChain scan (some t) (q :: rest)

/-- A JavaScript exception as the error-classification in the source sees
it: only its name is inspected (err?.name === '...'). -/
structure JSErr where
  name : Str
  deriving DecidableEq

/-- The name checked by DynamoModel.isConditionalCheckFailed. -/
def ccfName : Str :=
  ['C', 'o', 'n', 'd', 'i', 't', 'i', 'o', 'n', 'a', 'l', 'C', 'h', 'e', 'c', 'k',
   'F', 'a', 'i', 'l', 'e', 'd', 'E', 'x', 'c', 'e', 'p', 't', 'i', 'o', 'n']

/-- From src/DynamoModel.ts: DynamoModel.isConditionalCheckFailed(err) is
err?.name === 'ConditionalCheckFailedException'. -/
def isConditionalCheckFailed (e : JSErr) : Bool := e.name = ccfName

/-- A single-attribute condition as built by atomicAction: either equality
with a value or attributeNotExists. -/
inductive ACond where
  | eq (v : JVal)
  | attributeNotExists
  deriving DecidableEq

/-- From src/DynamoModel.ts atomicAction: the conditions object
lbrace [conditionAttribute]: item?.[conditionAttribute] ?? Condition.attributeNotExists() rbrace.
A present value means an equality condition; `??` treats both a missing item
or attribute (undefined) and a null value as absent. -/
def mkConds (conditionAttribute : Str) (item : Option Obj) : List (Str × ACond) :=
  [(conditionAttribute,
    match item with
    | none => ACond.attributeNotExists
    | some it =>
      match lookupJ it conditionAttribute with
      | none => ACond.attributeNotExists
      | some JVal.null => ACond.attributeNotExists
      | some v => ACond.eq v)]

/-- The argument object the action function receives. -/
structure ActionInput where
  key : Obj
  item : Option Obj
  conditions : List (Str × ACond)
  deriving DecidableEq

/-- Outcome of one action invocation: a value, or a thrown exception. -/
inductive AOutcome (R : Type) where
  | ok (v : R)
  | exn (e : JSErr)

/-- Result of the whole atomicAction call: the action's value, a rethrown
non-conditional error, or the final Error('Atomic action failed after max
attempts'). -/
inductive AResult (R : Type) where
  | ok (v : R)
  | exn (e : JSErr)
  | exhausted
  deriving DecidableEq

/-- Observable events of one atomicAction run: the fetch (this.get) opening
each attempt, the action invocation with its argument object, and the
Math.random()*100 retry delay slept after a conditional-check failure. -/
inductive AEvent where
  | fetch (attempt : Nat) (item : Option Obj)
  | act (attempt : Nat) (input : ActionInput)
  | delay (attempt : Nat) (d : ℚ)

/-- From src/DynamoModel.ts atomicAction: the loop body, indexed by the
remaining number of attempts and the current attempt counter.  `getItem`
gives the item this.get fetches on each attempt, `action` the caller's
function, `rand` the Math.random() draw of each attempt.  Falling out of the
loop throws the exhaustion error. -/
def atomicGo {R : Type} (getItem : Nat → Option Obj)
    (action : Nat → ActionInput → AOutcome R) (rand : Nat → ℚ)
    (key : Obj) (conditionAttribute : Str) :
    Nat → Nat → List AEvent × AResult R
  | 0, _ => ([], AResult.exhausted)
  | remaining + 1, attempt =>
    let item := getItem attempt
    let input : ActionInput := ⟨key, item, mkConds conditionAttribute item⟩
    match action attempt input with
    | AOutcome.ok v => ([AEvent.fetch attempt item, AEvent.act attempt input], AResult.ok v)
    | AOutcome.exn e =>
      if isConditionalCheckFailed e then
        let d := rand attempt * 100
        let rest := atomicGo getItem action rand key conditionAttribute remaining (attempt + 1)
        (AEvent.fetch attempt item :: AEvent.act attempt input :: AEvent.delay attempt d ::
          rest.1, rest.2)
      else ([AEvent.fetch attempt item, AEvent.act attempt input], AResult.exn e)

/-- From src/DynamoModel.ts atomicAction: maxAttempts defaults to 5, the
loop starts at attempt 0. -/
def atomicAction {R : Type} (getItem : Nat → Option Obj)
    (action : Nat → ActionInput → AOutcome R) (rand : Nat → ℚ)
    (key : Obj) (conditionAttribute : Str) (maxAttempts : Option Nat) :
    List AEvent × AResult R :=
  atomicGo getItem action rand key conditionAttribute (maxAttempts.getD 5) 0

def countFetch (evs : List AEvent) : Nat :=
  evs.countP (fun e => match e with | AEvent.fetch _ _ => true | _ => false)

def countAct (evs : List AEvent) : Nat :=
  evs.countP (fun e => match e with | AEvent.act _ _ => true | _ => false)

def countDelay (evs : List AEvent) : Nat :=
  evs.countP (fun e => match e with | AEvent.delay _ _ => true | _ => false)

/-- A write sub-request, tagged by which payload shape is populated (Put /
Update / Delete / ConditionCheck in a transaction; PutRequest / DeleteRequest
in a batch, parsed by the same function).  Each carries the TableName of the
request payload and the object parseRequest extracts (the Item of a put, the
Key otherwise). -/
inductive DReq where
  | putR (tableName : Str) (item : Obj)
  | updateR (tableName : Str) (key : Obj)
  | deleteR (tableName : Str) (key : Obj)
  | condR (tableName : Str) (key : Obj)
  deriving DecidableEq

inductive TriggerCommand where
  | put
  | update
  | delete
  deriving DecidableEq

def invalidRequestMsg : Str :=
  ['I', 'n', 'v', 'a', 'l', 'i', 'd', ' ', 'r', 'e', 'q', 'u', 'e', 's', 't']

/-- From src/utils.ts parseRequest: dispatch on the populated shape
(PutRequest ?? Put, then DeleteRequest ?? Delete, then UpdateRequest ??
Update); a put's key is its Item, otherwise the Key; anything else — in
particular a ConditionCheck — throws Error('Invalid request'). -/
def parseRequest : DReq → Except Str (Str × Obj × TriggerCommand)
  | DReq.putR tn item => Except.ok (tn, item, TriggerCommand.put)
  | DReq.deleteR tn key => Except.ok (tn, key, TriggerCommand.delete)
  | DReq.updateR tn key => Except.ok (tn, key, TriggerCommand.update)
  | DReq.condR _ _ => Except.error invalidRequestMsg

/-- A model as the dispatch code sees it: key attribute names and registered
triggers, identified by number. -/
structure ModelInfo where
  keyAttributes : List Str
  triggers : List Nat

/-- One trigger invocation: the trigger fired, with the key object and the
command passed to it. -/
structure TriggerCall where
  trigger : Nat
  key : Obj
  command : TriggerCommand
  deriving DecidableEq

/-- From src/DynamoTransaction.ts DynamoWriteTransaction.commit, success
path: this.items.forEach of parseRequest, modelMap lookup (an absent model
fires nothing), and the model's triggers in order.  A parseRequest throw
aborts the forEach: calls after the bad item are not made and the error
escapes. -/
def dispatchTriggers (modelMap : Str → Option ModelInfo) :
    List DReq → List TriggerCall × Option Str
  | [] => ([], none)
  | it :: rest =>
    match parseRequest it with
    | Except.error e => ([], some e)
    | Except.ok (tn, key, cmd) =>
      let calls :=
        match modelMap tn with
        | none => []
        | some m => m.triggers.map (fun t => ⟨t, key, cmd⟩)
      let next := dispatchTriggers modelMap rest
      (calls ++ next.1, next.2)

structure CancellationReason where
  code : Option Str
  deriving DecidableEq

/-- The store error of a transaction commit as the classification code sees
it: its name and its optional CancellationReasons array. -/
structure TxErr where
  name : Str
  cancellationReasons : Option (List CancellationReason)
  deriving DecidableEq

def tceName : Str :=
  ['T', 'r', 'a', 'n', 's', 'a', 'c', 't', 'i', 'o', 'n', 'C', 'a', 'n', 'c', 'e', 'l',
   'e', 'd', 'E', 'x', 'c', 'e', 'p', 't', 'i', 'o', 'n']

def ccfCode : Str :=
  ['C', 'o', 'n', 'd', 'i', 't', 'i', 'o', 'n', 'a', 'l', 'C', 'h', 'e', 'c', 'k',
   'F', 'a', 'i', 'l', 'e', 'd']

/-- From src/DynamoTransaction.ts: isTransactionCancelled(err) is
err?.name === 'TransactionCanceledException'. -/
def isTransactionCancelled (e : TxErr) : Bool := e.name = tceName

/-- From src/DynamoTransaction.ts: conditionalCheckFailed(err) is
transaction-cancelled with some CancellationReasons entry whose Code is
'ConditionalCheckFailed'; an absent reasons array gives false. -/
def conditionalCheckFailedErr (e : TxErr) : Bool :=
  isTransactionCancelled e &&
    (match e.cancellationReasons with
     | none => false
     | some rs => rs.any (fun r => r.code = some ccfCode))

/-- The instance method conditionalCheckFailed() applied to the stored
this.err (undefined before any failed commit). -/
def conditionalCheckFailed (err : Option TxErr) : Bool :=
  match err with
  | none => false
  | some e => conditionalCheckFailedErr e

inductive CommitThrown where
  | store (e : TxErr)
  | dispatch (msg : Str)
  deriving DecidableEq

/-- Outcome of DynamoWriteTransaction.commit: the stored this.err after the
call, what the call throws (if anything), and the trigger calls made. -/
structure CommitResult where
  err : Option TxErr
  thrown : Option CommitThrown
  triggers : List TriggerCall

/-- From src/DynamoTransaction.ts DynamoWriteTransaction.commit: on a store
failure the error is recorded in this.err and rethrown with no trigger
fired; on store success the trigger dispatch runs over the accumulated items
(and its own throw, for a ConditionCheck item, escapes commit). -/
def commitWrite (storeOutcome : Option TxErr) (modelMap : Str → Option ModelInfo)
    (items : List DReq) (prevErr : Option TxErr) : CommitResult :=
  match storeOutcome with
  | some e => ⟨some e, some (CommitThrown.store e), []⟩
  | none =>
    let d := dispatchTriggers modelMap items
    ⟨prevErr, d.2.map CommitThrown.dispatch, d.1⟩

/-- The per-table request lists accumulated by a batch statement (the
RequestItems shape), and likewise the UnprocessedItems of the response. -/
abbrev RequestMap := List (Str × List DReq)

def lookupRM : RequestMap → Str → Option (List DReq)
  | [], _ => none
  | (tn, rs) :: rest, t => if tn = t then some rs else lookupRM rest t

/-- From src/utils.ts getKeyValues: keyAttributes.map(attr => item[attr]);
a missing attribute is undefined. -/
def getKeyValues (item : Obj) (keyAttributes : List Str) : List (Option JVal) :=
  keyAttributes.map (fun attr => lookupJ item attr)

/-- JSON.stringify of one array element: undefined serialises as null inside
an array. -/
def printOptVal : Option JVal → Str
  | none => ['n', 'u', 'l', 'l']
  | some v => printJVal v

def printValsSep : List (Option JVal) → Str
  | [] => []
  | [v] => printOptVal v
  | v :: rest => printOptVal v ++ ',' :: printValsSep rest

/-- JSON.stringify of the key-value array used to compare requests. -/
def printKeyValues (vs : List (Option JVal)) : Str :=
  '[' :: (printValsSep vs ++ [']'])

def toOptionE {α β : Type} : Except α β → Option β
  | Except.ok b => some b
  | Except.error _ => none

/-- JSON.stringify(getKeyValues(parseRequest(request).key, keyAttributes)):
none when parseRequest throws. -/
def reqKeyStr (m : ModelInfo) (r : DReq) : Option Str :=
  (toOptionE (parseRequest r)).map
    (fun p => printKeyValues (getKeyValues p.2.1 m.keyAttributes))

/-- nextKeyValues?.some(v => v === keyValue) from the source. -/
def strMemOpt (nkv : Option (List Str)) (s : Str) : Bool :=
  match nkv with
  | none => false
  | some l => l.contains s

/-- A request shape a batch write statement can actually contain
(PutRequest or DeleteRequest). -/
def batchShaped : DReq → Prop
  | DReq.putR _ _ => True
  | DReq.deleteR _ _ => True
  | _ => False

instance (r : DReq) : Decidable (batchShaped r) :=
  match r with
  | DReq.putR _ _ => inferInstanceAs (Decidable True)
  | DReq.deleteR _ _ => inferInstanceAs (Decidable True)
  | DReq.updateR _ _ => inferInstanceAs (Decidable False)
  | DReq.condR _ _ => inferInstanceAs (Decidable False)

/-- From src/DynamoBatch.ts DynamoBatchWriteStatement.execute, inner loop
over one table's pre-call requests: parse each request, serialise its key
values, and unless that serialisation appears among the table's unprocessed
serialisations, fire the model's triggers and collect the item.  A
parseRequest throw escapes (none). -/
def procRequests (m : ModelInfo) (nkv : Option (List Str)) :
    List DReq → Option (List TriggerCall × List (TriggerCommand × Obj))
  | [] => some ([], [])
  | r :: rest =>
    match parseRequest r with
    | Except.error _ => none
    | Except.ok (_, key, cmd) =>
      match procRequests m nkv rest with
      | none => none
      | some (ts, is) =>
        if strMemOpt nkv (printKeyValues (getKeyValues key m.keyAttributes)) then
          some (ts, is)
        else
          some (m.triggers.map (fun t => ⟨t, key, cmd⟩) ++ ts, (cmd, key) :: is)

/-- From src/DynamoBatch.ts DynamoBatchWriteStatement.execute, outer loop
over Object.entries(this.requestMap): compute the table's nextKeyValues from
the response's unprocessed entries (absent table or absent response gives
undefined) and process the table's requests. -/
def execTables (modelMap : Str → ModelInfo) (resp : Option RequestMap) :
    RequestMap → Option (List TriggerCall × List (TriggerCommand × Obj))
  | [] => some ([], [])
  | (tn, requests) :: rest =>
    let m := modelMap tn
    let nkvE : Option (Option (List Str)) :=
      match resp.bind (fun rm => lookupRM rm tn) with
      | none => some none
      | some urs => (urs.mapM (fun r => reqKeyStr m r)).map some
    match nkvE with
    | none => none
    | some nkv =>
      match procRequests m nkv requests with
      | none => none
      | some (ts, is) =>
        match execTables modelMap resp rest with
        | none => none
        | some (ts2, is2) => some (ts ++ ts2, is ++ is2)

structure BatchExecResult where
  triggers : List TriggerCall
  items : List (TriggerCommand × Obj)
  newRequestMap : RequestMap
  done : Bool

/-- From src/DynamoBatch.ts DynamoBatchWriteStatement.execute: send the
pre-call request map; fire triggers for the requests not marked unprocessed;
replace this.requestMap with UnprocessedItems ?? empty, so a subsequent
execute() resubmits exactly the unprocessed requests; done iff the new map
has no table keys.  The modelMap is total because put/delete record a model
for every table they touch. -/
def executeBatchWrite (requestMap : RequestMap) (modelMap : Str → ModelInfo)
    (resp : Option RequestMap) : Option BatchExecResult :=
  (execTables modelMap resp requestMap).map
    (fun p => ⟨p.1, p.2, resp.getD [], (resp.getD []).isEmpty⟩)
theorem lookupJ_setKey (t : Obj) (k : Str) (v : JVal) (a : Str) :
    lookupJ (setKey t k v) a = if k = a then some v else lookupJ t a := by
  induction t with
  | nil =>
    by_cases h : k = a <;> simp [setKey, lookupJ, h]
  | cons p rest ih =>
    obtain ⟨pk, pv⟩ := p
    by_cases hpk : pk = k
    · subst hpk
      by_cases h : pk = a <;> simp [setKey, lookupJ, h, ih]
    · by_cases h : pk = a
      · subst h
        rw [show setKey ((pk, pv) :: rest) k v = (pk, pv) :: setKey rest k v from by
          simp [setKey, hpk]]
        have hkpk : ¬k = pk := fun hh => hpk hh.symm
        simp [lookupJ, hkpk]
      · simp [setKey, lookupJ, hpk, h, ih]

theorem lookupJ_objAssign (t s : Obj) (a : Str) :
    lookupJ (objAssign t s) a =
      match lookupLast s a with
      | some w => some w
      | none => lookupJ t a := by
  induction s generalizing t with
  | nil => simp [objAssign, lookupLast]
  | cons p rest ih =>
    obtain ⟨k, v⟩ := p
    have hstep : objAssign t ((k, v) :: rest) = objAssign (setKey t k v) rest := by
      simp [objAssign, List.foldl_cons]
    rw [hstep, ih]
    cases hrest : lookupLast rest a with
    | some w => simp [lookupLast, hrest]
    | none =>
      by_cases hk : k = a
      · subst hk
        simp [lookupLast, hrest, lookupJ_setKey]
      · have : ¬a = k := fun h => hk h.symm
        simp [lookupLast, hrest, lookupJ_setKey, hk]

theorem objKeys_cons (k : Str) (v : JVal) (rest : Obj) :
    objKeys ((k, v) :: rest) = k :: objKeys rest := rfl

theorem lookupLast_of_not_mem (s : Obj) (a : Str) (h : a ∉ objKeys s) :
    lookupLast s a = none := by
  induction s with
  | nil => rfl
  | cons p rest ih =>
    obtain ⟨k, v⟩ := p
    rw [objKeys_cons, List.mem_cons] at h
    have h1 : ¬a = k := fun hh => h (Or.inl hh)
    have h2 : a ∉ objKeys rest := fun hh => h (Or.inr hh)
    have hk : ¬k = a := fun hh => h1 hh.symm
    simp [lookupLast, ih h2, hk]

theorem lookupLast_eq_lookupJ (s : Obj) (a : Str) (h : NodupKeys s) :
    lookupLast s a = lookupJ s a := by
  induction s with
  | nil => rfl
  | cons p rest ih =>
    obtain ⟨k, v⟩ := p
    unfold NodupKeys at h
    rw [objKeys_cons, List.nodup_cons] at h
    obtain ⟨hnot, hnd⟩ := h
    by_cases hk : k = a
    · subst hk
      have : lookupLast rest k = none := lookupLast_of_not_mem rest k hnot
      simp [lookupLast, lookupJ, this]
    · have hrw := ih hnd
      simp only [lookupLast, lookupJ, if_neg hk, hrw]
      cases lookupJ rest a <;> rfl

theorem lookupJ_assignAll (t : Obj) (srcs : List Obj) (a : Str)
    (h : ∀ s ∈ srcs, NodupKeys s) :
    lookupJ (assignAll t srcs) a =
      match srcs.reverse.find? (fun s => (lookupJ s a).isSome) with
      | some s => lookupJ s a
      | none => lookupJ t a := by
  induction srcs generalizing t with
  | nil => simp [assignAll]
  | cons s rest ih =>
    have hstep : assignAll t (s :: rest) = assignAll (objAssign t s) rest := by
      simp [assignAll, List.foldl_cons]
    rw [hstep, ih _ (fun x hx => h x (List.mem_cons_of_mem _ hx))]
    have hfind : (s :: rest).reverse.find? (fun x => (lookupJ x a).isSome) =
        match rest.reverse.find? (fun x => (lookupJ x a).isSome) with
        | some x => some x
        | none => if (lookupJ s a).isSome then some s else none := by
      rw [List.reverse_cons, List.find?_append]
      cases hr : rest.reverse.find? (fun x => (lookupJ x a).isSome) with
      | some x => simp [Option.orElse]
      | none =>
        simp only [Option.orElse, List.find?]
        by_cases hs : (lookupJ s a).isSome <;> simp [hs]
    rw [hfind]
    cases hr : rest.reverse.find? (fun x => (lookupJ x a).isSome) with
    | some x => simp
    | none =>
      have hs := lookupLast_eq_lookupJ s a (h s (List.mem_cons_self _ _))
      rw [lookupJ_objAssign]
      rw [hs]
      cases hlk : lookupJ s a with
      | some w => simp [hlk]
      | none => simp [hlk]

/-- C7: for every put with any ordered list of registered creators, the stored
item is the caller item merged with every creator's output in registration
order: each creator receives the original caller item, later creators override
earlier ones on attributes produced by multiple creators, and creator output
overrides identically-named caller-supplied attribute values.  Stated as: the
value of any attribute `a` of the stored item is the value given by the last
creator output that defines `a`, and the caller's value only when no creator
output defines `a`. -/
theorem creator_precedence (creators : List (Obj → Obj)) (item : Obj) (a : Str)
    (h : ∀ c ∈ creators, NodupKeys (c item)) :
    lookupJ (putFullItem creators item) a =
      match (creators.map (fun c => c item)).reverse.find?
          (fun out => (lookupJ out a).isSome) with
      | some out => lookupJ out a
      | none => lookupJ item a := by
  unfold putFullItem
  exact lookupJ_assignAll item (creators.map (fun c => c item)) a
    (by intro s hs; obtain ⟨c, hc, rfl⟩ := List.mem_map.mp hs; exact h c hc)

/-- Witness for creator_precedence: two creators both produce attribute `x`;
the stored value of `x` is the second creator's, overriding both the first
creator and the caller-supplied value, while the caller's `z` survives. -/
theorem creator_precedence_witness :
    lookupJ
      (putFullItem
        [fun _ => [(['x'], JVal.num 1), (['y'], JVal.num 2)],
         fun _ => [(['x'], JVal.num 3)]]
        [(['x'], JVal.str ['c']), (['z'], JVal.num 9)]) ['x'] = some (JVal.num 3) ∧
    lookupJ
      (putFullItem
        [fun _ => [(['x'], JVal.num 1), (['y'], JVal.num 2)],
         fun _ => [(['x'], JVal.num 3)]]
        [(['x'], JVal.str ['c']), (['z'], JVal.num 9)]) ['z'] = some (JVal.num 9) := by
  constructor
  · rw [creator_precedence _ _ _ (by
      intro c hc
      simp only [List.mem_cons, List.not_mem_nil, or_false] at hc
      rcases hc with rfl | rfl <;> decide)]
    decide
  · rw [creator_precedence _ _ _ (by
      intro c hc
      simp only [List.mem_cons, List.not_mem_nil, or_false] at hc
      rcases hc with rfl | rfl <;> decide)]
    decide

/-!
Heap model of in-place mutation.  A JS object reference is a `Nat`; the heap
maps references to object values.  `createPutRequest` and
`createUpdateRequest` receive the caller's object by reference and mutate it
via Object.assign; `DynamoModel.put` then runs the converters over the same
object (convertItem mutates in place) and returns it as result.item.
-/

/-- C10: put and update mutate their caller-supplied argument objects in
place.  After createPutRequest the caller's item object holds the caller
item merged with the creator outputs and the request's Item is that very
object; after DynamoModel.put the returned result.item is still the caller's
object, now also run through the converters.  After createUpdateRequest the
caller's attributes object holds the attributes merged with the updater
outputs. -/
theorem put_update_mutate_in_place (tableName : Str)
    (creators converters updaters : List (Obj → Obj)) (h : Heap)
    (itemRef keyRef attributesRef : Nat) :
    ((createPutRequestH tableName creators h itemRef).1 itemRef =
        putFullItem creators (h itemRef)) ∧
    ((createPutRequestH tableName creators h itemRef).2.itemRef = itemRef) ∧
    ((modelPutH tableName creators converters h itemRef).2.2.itemRef = itemRef) ∧
    ((modelPutH tableName creators converters h itemRef).1 itemRef =
        applyConverters converters (putFullItem creators (h itemRef))) ∧
    ((createUpdateRequestH tableName updaters h keyRef attributesRef).1 attributesRef =
        updateFullAttributes updaters (h attributesRef)) ∧
    ((createUpdateRequestH tableName updaters h keyRef attributesRef).2.attributesRef =
        attributesRef) := by
  refine ⟨?_, rfl, rfl, ?_, ?_, rfl⟩
  · simp [createPutRequestH, hUpdate]
  · simp [modelPutH, createPutRequestH, hUpdate]
  · simp [createUpdateRequestH, hUpdate]

/-!
Page tokens (src/utils.ts):
  parsePageToken(t) = t && JSON.parse(Buffer.from(t, 'base64').toString())
  formatPageToken(k) = k && Buffer.from(JSON.stringify(k)).toString('base64')
JSON.stringify, JSON.parse, UTF-8 and base64 are given executable models
below, restricted to the object shapes a LastEvaluatedKey can take.
JSON.stringify escapes only quote and backslash for the strings admitted by
`validStr` (those without control characters), which is the region where the
model below is faithful to the JavaScript builtin.
-/

theorem digitChar_isDigit : ∀ d, d < 10 → (digitChar d).isDigit = true := by decide

theorem charDigitVal_digitChar : ∀ d, d < 10 → charDigitVal (digitChar d) = d := by decide

theorem printNat_ne_nil (n : Nat) : printNat n ≠ [] := by
  unfold printNat
  by_cases h : n = 0
  · simp [h]
  · simp only [h, if_false]
    intro hcon
    have : Nat.digits 10 n ≠ [] := Nat.digits_ne_nil_iff_ne_zero.mpr h
    simp at hcon
    exact this hcon

theorem printNat_all_digit (n : Nat) : ∀ c ∈ printNat n, c.isDigit = true := by
  intro c hc
  unfold printNat at hc
  by_cases h : n = 0
  · simp [h] at hc
    subst hc; decide
  · simp only [h, if_false] at hc
    rw [List.mem_map] at hc
    obtain ⟨d, hd, rfl⟩ := hc
    rw [List.mem_reverse] at hd
    exact digitChar_isDigit d (Nat.digits_lt_base (by norm_num) hd)

theorem takeWhile_all_append (p : Char → Bool) (l rest : Str)
    (hl : ∀ c ∈ l, p c = true) (hrest : ∀ c, rest.head? = some c → p c = false) :
    (l ++ rest).takeWhile p = l ∧ (l ++ rest).dropWhile p = rest := by
  induction l with
  | nil =>
    simp only [List.nil_append]
    cases rest with
    | nil => simp
    | cons r rs =>
      have hr := hrest r rfl
      simp [List.takeWhile_cons, List.dropWhile_cons, hr]
  | cons c cs ih =>
    have hc := hl c (List.mem_cons_self _ _)
    have := ih (fun x hx => hl x (List.mem_cons_of_mem _ hx))
    simp [List.takeWhile_cons, List.dropWhile_cons, hc, this.1, this.2]

theorem foldl_map_digitChar (ds : List Nat) (hds : ∀ d ∈ ds, d < 10) :
    ∀ acc, (ds.map digitChar).foldl (fun a c => 10 * a + charDigitVal c) acc =
      ds.foldl (fun a d => 10 * a + d) acc := by
  induction ds with
  | nil => intro acc; rfl
  | cons d rest ih =>
    intro acc
    have hd := hds d (List.mem_cons_self _ _)
    simp only [List.map_cons, List.foldl_cons, charDigitVal_digitChar d hd]
    exact ih (fun x hx => hds x (List.mem_cons_of_mem _ hx)) _

theorem foldr_digits_ofDigits (ds : List Nat) :
    ds.foldr (fun d a => 10 * a + d) 0 = Nat.ofDigits 10 ds := by
  induction ds with
  | nil => rfl
  | cons d rest ih =>
    simp only [List.foldr_cons, ih, Nat.ofDigits_cons]
    ring

theorem foldl_printNat (n : Nat) :
    (printNat n).foldl (fun a c => 10 * a + charDigitVal c) 0 = n := by
  unfold printNat
  by_cases h : n = 0
  · simp [h]; decide
  · simp only [h, if_false]
    rw [foldl_map_digitChar _ (fun d hd =>
      Nat.digits_lt_base (by norm_num) (List.mem_reverse.mp hd))]
    rw [List.foldl_reverse]
    have : (fun (x : Nat) (y : Nat) => 10 * y + x) = fun x y => (fun a d => 10 * a + d) y x := rfl
    rw [show ((Nat.digits 10 n).foldr (fun (x : Nat) (y : Nat) => 10 * y + x) 0) =
        (Nat.digits 10 n).foldr (fun d a => 10 * a + d) 0 from rfl]
    rw [foldr_digits_ofDigits]
    exact Nat.ofDigits_digits 10 n

theorem parseNatChars_print (n : Nat) (rest : Str) (h : NoDigitStart rest) :
    parseNatChars (printNat n ++ rest) = some (n, rest) := by
  obtain ⟨ht, hd⟩ := takeWhile_all_append Char.isDigit (printNat n) rest
    (printNat_all_digit n) h
  simp only [parseNatChars, ht, hd, printNat_ne_nil n, if_false, foldl_printNat n]

theorem parseIntChars_print (n : Int) (rest : Str) (h : NoDigitStart rest) :
    parseIntChars (printInt n ++ rest) = some (n, rest) := by
  by_cases hn : n < 0
  · simp only [printInt, hn, if_true, List.cons_append]
    simp only [parseIntChars, if_pos rfl]
    rw [parseNatChars_print _ _ h]
    have habs : -((n.natAbs : Int)) = n := by omega
    have hmap : Option.map (fun p : Nat × Str => (-(p.1 : Int), p.2)) (some (n.natAbs, rest))
        = some (-(n.natAbs : Int), rest) := rfl
    rw [hmap, habs]
    simp
  · simp only [printInt, hn, if_false]
    cases hpn : printNat n.natAbs with
    | nil => exact absurd hpn (printNat_ne_nil _)
    | cons c cs =>
      have hcd : c.isDigit = true := by
        have := printNat_all_digit n.natAbs
        rw [hpn] at this
        exact this c (List.mem_cons_self _ _)
      have hcm : ¬c = '-' := by
        intro hh; rw [hh] at hcd; exact absurd hcd (by decide)
      rw [List.cons_append]
      simp only [parseIntChars, if_neg hcm]
      rw [← List.cons_append, ← hpn, parseNatChars_print _ _ h]
      have habs : ((n.natAbs : Int)) = n := by omega
      simp [habs]

theorem parseQStrBody_cons (c : Char) (rest : Str) :
    parseQStrBody (c :: rest) =
      if c = '"' then some ([], rest)
      else if c = '\\' then
        (match rest with
         | [] => none
         | e :: rest2 =>
           if e = '"' ∨ e = '\\' then
             (parseQStrBody rest2).map (fun p => (e :: p.1, p.2))
           else none)
      else (parseQStrBody rest).map (fun p => (c :: p.1, p.2)) := by
  rw [parseQStrBody.eq_def]
  rfl

theorem parseQStrBody_esc (s rest : Str) :
    parseQStrBody (escStr s ++ '"' :: rest) = some (s, rest) := by
  induction s with
  | nil =>
    rw [show escStr [] ++ '"' :: rest = '"' :: rest from rfl, parseQStrBody_cons]
    simp
  | cons c cs ih =>
    by_cases hq : c = '"'
    · subst hq
      rw [show escStr ('"' :: cs) = '\\' :: '"' :: escStr cs from rfl,
        List.cons_append, List.cons_append,
        show parseQStrBody ('\\' :: '"' :: (escStr cs ++ '"' :: rest)) =
          (parseQStrBody (escStr cs ++ '"' :: rest)).map (fun p => ('"' :: p.1, p.2)) from rfl,
        ih]
      rfl
    · by_cases hb : c = '\\'
      · subst hb
        rw [show escStr ('\\' :: cs) = '\\' :: '\\' :: escStr cs from rfl,
          List.cons_append, List.cons_append,
          show parseQStrBody ('\\' :: '\\' :: (escStr cs ++ '"' :: rest)) =
            (parseQStrBody (escStr cs ++ '"' :: rest)).map (fun p => ('\\' :: p.1, p.2)) from rfl,
          ih]
        rfl
      · rw [show escStr (c :: cs) = escChar c ++ escStr cs from rfl,
          show escChar c = [c] from by simp [escChar, hq, hb],
          List.append_assoc, List.cons_append, List.nil_append]
        rw [parseQStrBody_cons, if_neg hq, if_neg hb, ih]
        rfl

theorem isDigit_ne_marks (c : Char) (hc : c.isDigit = true) :
    ¬c = '"' ∧ ¬c = 'n' ∧ ¬c = 't' ∧ ¬c = 'f' := by
  refine ⟨?_, ?_, ?_, ?_⟩ <;> intro hh <;> rw [hh] at hc <;> exact absurd hc (by decide)

theorem parseJVal_print (v : JVal) (rest : Str) (h : NoDigitStart rest) :
    parseJVal (printJVal v ++ rest) = some (v, rest) := by
  cases v with
  | str s =>
    simp only [printJVal, printQStr, List.cons_append, List.append_assoc, List.nil_append]
    simp [parseJVal, parseQStrBody_esc s rest]
  | num n =>
    have hne : printInt n ≠ [] := by
      unfold printInt
      by_cases hn : n < 0
      · simp [hn]
      · simp [hn, printNat_ne_nil]
    cases hpi : printInt n with
    | nil => exact absurd hpi hne
    | cons c cs =>
      have hc : c = '-' ∨ c.isDigit = true := by
        unfold printInt at hpi
        by_cases hn : n < 0
        · rw [if_pos hn] at hpi
          injection hpi with h1 h2
          exact Or.inl h1.symm
        · rw [if_neg hn] at hpi
          refine Or.inr ?_
          have := printNat_all_digit n.natAbs
          rw [hpi] at this
          exact this c (List.mem_cons_self _ _)
      have hmarks : ¬c = '"' ∧ ¬c = 'n' ∧ ¬c = 't' ∧ ¬c = 'f' := by
        rcases hc with rfl | hcd
        · exact ⟨by decide, by decide, by decide, by decide⟩
        · exact isDigit_ne_marks c hcd
      rw [show printJVal (JVal.num n) = printInt n from rfl, hpi, List.cons_append]
      simp only [parseJVal, if_neg hmarks.1, if_neg hmarks.2.1, if_neg hmarks.2.2.1,
        if_neg hmarks.2.2.2]
      rw [← List.cons_append, ← hpi, parseIntChars_print n rest h]
      rfl
  | bool b => cases b <;> rfl
  | null => rfl

theorem parsePair_print (p : Str × JVal) (rest : Str) (h : NoDigitStart rest) :
    parsePair (printPair p ++ rest) = some (p, rest) := by
  obtain ⟨k, v⟩ := p
  show parsePair ((printQStr k ++ ':' :: printJVal v) ++ rest) = some ((k, v), rest)
  rw [show (printQStr k ++ ':' :: printJVal v) ++ rest =
      '"' :: (escStr k ++ '"' :: (':' :: (printJVal v ++ rest))) from by
    simp [printQStr, List.append_assoc]]
  simp only [parsePair, if_pos rfl, parseQStrBody_esc k (':' :: (printJVal v ++ rest))]
  simp [parseJVal_print v rest h]

theorem printPair_head (p : Str × JVal) :
    ∃ tail, printPair p = '"' :: tail := by
  obtain ⟨k, v⟩ := p
  exact ⟨escStr k ++ ['"'] ++ (':' :: printJVal v), by simp [printPair, printQStr]⟩

theorem printMembers_length (p : Str × JVal) (ps : Obj) :
    ps.length + 1 ≤ (printMembers p ps).length := by
  induction ps generalizing p with
  | nil => simp [printMembers]
  | cons q qs ih =>
    have := ih q
    simp only [printMembers, List.length_append, List.length_cons]
    omega

theorem parseMembers_print (ps : Obj) (p : Str × JVal) (rest : Str) (fuel : Nat)
    (hfuel : ps.length < fuel) :
    parseMembers fuel (printMembers p ps ++ rest) = some (p :: ps, rest) := by
  induction ps generalizing p rest fuel with
  | nil =>
    obtain ⟨f, rfl⟩ : ∃ f, fuel = f + 1 := ⟨fuel - 1, by omega⟩
    rw [show printMembers p [] ++ rest = printPair p ++ rbrace :: rest from by
      simp [printMembers]]
    have hnd : NoDigitStart (rbrace :: rest) := by
      intro c hc
      simp only [List.head?] at hc
      injection hc with hc
      rw [← hc]; decide
    simp only [parseMembers, parsePair_print p (rbrace :: rest) hnd]
    simp
    intro h
    exact absurd h (by decide)
  | cons q qs ih =>
    obtain ⟨f, rfl⟩ : ∃ f, fuel = f + 1 := ⟨fuel - 1, by omega⟩
    rw [show printMembers p (q :: qs) ++ rest =
      printPair p ++ ',' :: (printMembers q qs ++ rest) from by
      simp [printMembers]]
    have hnd : NoDigitStart (',' :: (printMembers q qs ++ rest)) := by
      intro c hc
      simp only [List.head?] at hc
      injection hc with hc
      rw [← hc]; decide
    simp only [parseMembers, parsePair_print p _ hnd]
    rw [ih q rest f (by simp at hfuel; omega)]
    simp

theorem parseObjPrefix_print (o : Obj) (rest : Str) :
    parseObjPrefix (printObj o ++ rest) = some (o, rest) := by
  cases o with
  | nil =>
    rw [show printObj [] ++ rest = lbrace :: rbrace :: rest from by simp [printObj]]
    simp [parseObjPrefix]
  | cons p ps =>
    rw [show printObj (p :: ps) ++ rest = lbrace :: (printMembers p ps ++ rest) from by
      simp [printObj]]
    obtain ⟨tail, htail⟩ := printPair_head p
    have hhead : ∃ tl, printMembers p ps ++ rest = '"' :: tl := by
      cases ps with
      | nil =>
        refine ⟨tail ++ ([rbrace] ++ rest), ?_⟩
        simp [printMembers, htail]
      | cons q qs =>
        refine ⟨tail ++ (',' :: printMembers q qs ++ rest), ?_⟩
        simp [printMembers, htail]
    obtain ⟨tl, htl⟩ := hhead
    rw [htl]
    have hred : parseObjPrefix (lbrace :: '"' :: tl) =
        parseMembers ('"' :: tl).length ('"' :: tl) := by
      simp [parseObjPrefix]
      intro h
      exact absurd h (by decide)
    rw [hred, ← htl]
    have hlen : ps.length < (printMembers p ps ++ rest).length := by
      have := printMembers_length p ps
      simp only [List.length_append]
      omega
    exact parseMembers_print ps p rest _ hlen

theorem jsonParseObj_print (o : Obj) : jsonParseObj (printObj o) = some o := by
  unfold jsonParseObj
  rw [show printObj o = printObj o ++ [] from by simp, parseObjPrefix_print o []]
theorem b64Index_b64Char : ∀ n, n < 64 → b64Index (b64Char n) = some n := by decide

theorem b64Char_ne_eq : ∀ n, n < 64 → ¬b64Char n = '=' := by decide

theorem b64Dec_cons4 (c1 c2 c3 c4 : Char) (rest : Str) :
    b64Dec (c1 :: c2 :: c3 :: c4 :: rest) =
      (if c3 = '=' then
        if c4 = '=' ∧ rest = [] then
          match b64Index c1, b64Index c2 with
          | some s1, some s2 => some [s1 * 4 + s2 / 16]
          | _, _ => none
        else none
      else if c4 = '=' then
        if rest = [] then
          match b64Index c1, b64Index c2, b64Index c3 with
          | some s1, some s2, some s3 => some [s1 * 4 + s2 / 16, s2 % 16 * 16 + s3 / 4]
          | _, _, _ => none
        else none
      else
        match b64Index c1, b64Index c2, b64Index c3, b64Index c4, b64Dec rest with
        | some s1, some s2, some s3, some s4, some tail =>
          some ((s1 * 4 + s2 / 16) :: (s2 % 16 * 16 + s3 / 4) :: (s3 % 4 * 64 + s4) :: tail)
        | _, _, _, _, _ => none) := by
  rw [b64Dec.eq_def]

theorem b64Dec_b64Enc (bs : List Nat) (h : ∀ b ∈ bs, b < 256) :
    b64Dec (b64Enc bs) = some bs := by
  induction bs using b64Enc.induct with
  | case1 => rfl
  | case2 b1 =>
    have hb1 : b1 < 256 := h b1 (List.mem_cons_self _ _)
    rw [show b64Enc [b1] = [b64Char (b1 / 4), b64Char (b1 % 4 * 16), '=', '='] from rfl]
    rw [b64Dec_cons4, if_pos rfl, if_pos ⟨rfl, rfl⟩,
      b64Index_b64Char _ (by omega), b64Index_b64Char _ (by omega)]
    simp only
    refine congrArg some ?_
    have : b1 / 4 * 4 + b1 % 4 * 16 / 16 = b1 := by omega
    rw [this]
  | case3 b1 b2 =>
    have hb1 : b1 < 256 := h b1 (List.mem_cons_self _ _)
    have hb2 : b2 < 256 := h b2 (List.mem_cons_of_mem _ (List.mem_cons_self _ _))
    rw [show b64Enc [b1, b2] =
      [b64Char (b1 / 4), b64Char (b1 % 4 * 16 + b2 / 16), b64Char (b2 % 16 * 4), '='] from rfl]
    rw [b64Dec_cons4, if_neg (b64Char_ne_eq _ (by omega)), if_pos rfl, if_pos rfl,
      b64Index_b64Char _ (by omega), b64Index_b64Char _ (by omega),
      b64Index_b64Char _ (by omega)]
    simp only
    refine congrArg some ?_
    have e1 : b1 / 4 * 4 + (b1 % 4 * 16 + b2 / 16) / 16 = b1 := by omega
    have e2 : (b1 % 4 * 16 + b2 / 16) % 16 * 16 + b2 % 16 * 4 / 4 = b2 := by omega
    rw [e1, e2]
  | case4 b1 b2 b3 rest ih =>
    have hb1 : b1 < 256 := h b1 (by simp)
    have hb2 : b2 < 256 := h b2 (by simp)
    have hb3 : b3 < 256 := h b3 (by simp)
    have ihr := ih (fun x hx => h x (by simp [hx]))
    rw [show b64Enc (b1 :: b2 :: b3 :: rest) =
      b64Char (b1 / 4) :: b64Char (b1 % 4 * 16 + b2 / 16) ::
        b64Char (b2 % 16 * 4 + b3 / 64) :: b64Char (b3 % 64) :: b64Enc rest from rfl]
    rw [b64Dec_cons4, if_neg (b64Char_ne_eq _ (by omega)), if_neg (b64Char_ne_eq _ (by omega)),
      b64Index_b64Char _ (by omega), b64Index_b64Char _ (by omega),
      b64Index_b64Char _ (by omega), b64Index_b64Char _ (by omega), ihr]
    simp only
    refine congrArg some ?_
    have e1 : b1 / 4 * 4 + (b1 % 4 * 16 + b2 / 16) / 16 = b1 := by omega
    have e2 : (b1 % 4 * 16 + b2 / 16) % 16 * 16 + (b2 % 16 * 4 + b3 / 64) / 4 = b2 := by omega
    have e3 : (b2 % 16 * 4 + b3 / 64) % 4 * 64 + b3 % 64 = b3 := by omega
    rw [e1, e2, e3]
theorem utf8DecodeOne_char (c : Char) (bs : List Nat) :
    ∃ b rest, utf8Char c ++ bs = b :: rest ∧ utf8DecodeOne b rest = some (c, bs) := by
  have hofn : Char.ofNat c.toNat = c := Char.ofNat_toNat c
  have hlt : c.toNat < 1114112 := by
    rcases c.valid with hv | ⟨hv1, hv2⟩
    · exact Nat.lt_trans hv (by norm_num)
    · exact hv2
  by_cases h1 : c.toNat < 128
  · refine ⟨c.toNat, bs, ?_, ?_⟩
    · rw [show utf8Char c = [c.toNat] from by unfold utf8Char; rw [if_pos h1]]
      rfl
    · unfold utf8DecodeOne
      rw [if_pos h1, hofn]
  · by_cases h2 : c.toNat < 2048
    · refine ⟨192 + c.toNat / 64, (128 + c.toNat % 64) :: bs, ?_, ?_⟩
      · rw [show utf8Char c = [192 + c.toNat / 64, 128 + c.toNat % 64] from by
          unfold utf8Char; rw [if_neg h1, if_pos h2]]
        rfl
      · unfold utf8DecodeOne
        rw [if_neg (by omega), if_neg (by omega), if_pos (by omega)]
        rw [show (match (128 + c.toNat % 64) :: bs with
          | [] => none
          | b2 :: r =>
            if 128 ≤ b2 ∧ b2 < 192 then
              some (Char.ofNat ((192 + c.toNat / 64 - 192) * 64 + (b2 - 128)), r)
            else none) =
          if 128 ≤ 128 + c.toNat % 64 ∧ 128 + c.toNat % 64 < 192 then
            some (Char.ofNat ((192 + c.toNat / 64 - 192) * 64 + (128 + c.toNat % 64 - 128)), bs)
          else none from rfl]
        rw [if_pos (by omega),
          show (192 + c.toNat / 64 - 192) * 64 + (128 + c.toNat % 64 - 128) = c.toNat from by
            omega, hofn]
    · by_cases h3 : c.toNat < 65536
      · refine ⟨224 + c.toNat / 4096, (128 + c.toNat / 64 % 64) :: (128 + c.toNat % 64) :: bs, ?_, ?_⟩
        · rw [show utf8Char c = [224 + c.toNat / 4096, 128 + c.toNat / 64 % 64,
            128 + c.toNat % 64] from by unfold utf8Char; rw [if_neg h1, if_neg h2, if_pos h3]]
          rfl
        · unfold utf8DecodeOne
          rw [if_neg (by omega), if_neg (by omega), if_neg (by omega), if_pos (by omega)]
          rw [show (match (128 + c.toNat / 64 % 64) :: (128 + c.toNat % 64) :: bs with
            | b2 :: b3 :: r =>
              if (128 ≤ b2 ∧ b2 < 192) ∧ (128 ≤ b3 ∧ b3 < 192) then
                some (Char.ofNat ((224 + c.toNat / 4096 - 224) * 4096 + (b2 - 128) * 64 +
                  (b3 - 128)), r)
              else none
            | _ => none) =
            if (128 ≤ 128 + c.toNat / 64 % 64 ∧ 128 + c.toNat / 64 % 64 < 192) ∧
                (128 ≤ 128 + c.toNat % 64 ∧ 128 + c.toNat % 64 < 192) then
              some (Char.ofNat ((224 + c.toNat / 4096 - 224) * 4096 +
                (128 + c.toNat / 64 % 64 - 128) * 64 + (128 + c.toNat % 64 - 128)), bs)
            else none from rfl]
          rw [if_pos (by omega),
            show (224 + c.toNat / 4096 - 224) * 4096 + (128 + c.toNat / 64 % 64 - 128) * 64 +
              (128 + c.toNat % 64 - 128) = c.toNat from by omega, hofn]
      · refine ⟨240 + c.toNat / 262144,
          (128 + c.toNat / 4096 % 64) :: (128 + c.toNat / 64 % 64) :: (128 + c.toNat % 64) :: bs,
          ?_, ?_⟩
        · rw [show utf8Char c = [240 + c.toNat / 262144, 128 + c.toNat / 4096 % 64,
            128 + c.toNat / 64 % 64, 128 + c.toNat % 64] from by
            unfold utf8Char; rw [if_neg h1, if_neg h2, if_neg h3]]
          rfl
        · unfold utf8DecodeOne
          rw [if_neg (by omega), if_neg (by omega), if_neg (by omega), if_neg (by omega),
            if_pos (by omega)]
          rw [show (match (128 + c.toNat / 4096 % 64) :: (128 + c.toNat / 64 % 64) ::
              (128 + c.toNat % 64) :: bs with
            | b2 :: b3 :: b4 :: r =>
              if (128 ≤ b2 ∧ b2 < 192) ∧ (128 ≤ b3 ∧ b3 < 192) ∧ (128 ≤ b4 ∧ b4 < 192) then
                some (Char.ofNat ((240 + c.toNat / 262144 - 240) * 262144 + (b2 - 128) * 4096 +
                  (b3 - 128) * 64 + (b4 - 128)), r)
              else none
            | _ => none) =
            if (128 ≤ 128 + c.toNat / 4096 % 64 ∧ 128 + c.toNat / 4096 % 64 < 192) ∧
                (128 ≤ 128 + c.toNat / 64 % 64 ∧ 128 + c.toNat / 64 % 64 < 192) ∧
                (128 ≤ 128 + c.toNat % 64 ∧ 128 + c.toNat % 64 < 192) then
              some (Char.ofNat ((240 + c.toNat / 262144 - 240) * 262144 +
                (128 + c.toNat / 4096 % 64 - 128) * 4096 +
                (128 + c.toNat / 64 % 64 - 128) * 64 + (128 + c.toNat % 64 - 128)), bs)
            else none from rfl]
          rw [if_pos (by omega),
            show (240 + c.toNat / 262144 - 240) * 262144 +
              (128 + c.toNat / 4096 % 64 - 128) * 4096 +
              (128 + c.toNat / 64 % 64 - 128) * 64 + (128 + c.toNat % 64 - 128) = c.toNat from by
              omega, hofn]

theorem utf8DecGo_print (s : Str) :
    ∀ fuel, s.length ≤ fuel → utf8DecGo fuel (utf8Str s) = some s := by
  induction s with
  | nil =>
    intro fuel _
    cases fuel <;> rfl
  | cons c cs ih =>
    intro fuel hfuel
    obtain ⟨f, rfl⟩ : ∃ f, fuel = f + 1 := ⟨fuel - 1, by simp at hfuel; omega⟩
    obtain ⟨b, rest, heq, hone⟩ := utf8DecodeOne_char c (utf8Str cs)
    rw [show utf8Str (c :: cs) = utf8Char c ++ utf8Str cs from rfl, heq]
    simp only [utf8DecGo, hone]
    rw [ih f (by simp at hfuel; omega)]
    rfl

theorem utf8Dec_utf8Str (s : Str) : utf8Dec (utf8Str s) = some s :=
  utf8DecGo_print s _ (by
    induction s with
    | nil => simp [utf8Str]
    | cons c cs ih =>
      rw [show utf8Str (c :: cs) = utf8Char c ++ utf8Str cs from rfl]
      simp only [List.length_append, List.length_cons]
      have : 1 ≤ (utf8Char c).length := by
        unfold utf8Char
        by_cases h1 : c.toNat < 128
        · simp [h1]
        · by_cases h2 : c.toNat < 2048
          · simp [h1, h2]
          · by_cases h3 : c.toNat < 65536 <;> simp [h1, h2, h3]
      omega)

theorem utf8Char_lt_256 (c : Char) : ∀ b ∈ utf8Char c, b < 256 := by
  have hlt : c.toNat < 1114112 := by
    rcases c.valid with hv | ⟨hv1, hv2⟩
    · exact Nat.lt_trans hv (by norm_num)
    · exact hv2
  intro b hb
  unfold utf8Char at hb
  by_cases h1 : c.toNat < 128
  · simp [h1] at hb; omega
  · by_cases h2 : c.toNat < 2048
    · simp [h1, h2] at hb
      rcases hb with rfl | rfl <;> omega
    · by_cases h3 : c.toNat < 65536
      · simp [h1, h2, h3] at hb
        rcases hb with rfl | rfl | rfl <;> omega
      · simp [h1, h2, h3] at hb
        rcases hb with rfl | rfl | rfl | rfl <;> omega

theorem utf8Str_lt_256 (s : Str) : ∀ b ∈ utf8Str s, b < 256 := by
  induction s with
  | nil => intro b hb; cases hb
  | cons c cs ih =>
    intro b hb
    rw [show utf8Str (c :: cs) = utf8Char c ++ utf8Str cs from rfl, List.mem_append] at hb
    rcases hb with hb | hb
    · exact utf8Char_lt_256 c b hb
    · exact ih b hb

theorem b64Enc_ne_nil (bs : List Nat) (h : bs ≠ []) : b64Enc bs ≠ [] := by
  cases bs with
  | nil => exact absurd rfl h
  | cons b1 t =>
    cases t with
    | nil => simp [b64Enc]
    | cons b2 t2 =>
      cases t2 with
      | nil => simp [b64Enc]
      | cons b3 t3 => simp [b64Enc]

theorem utf8Str_printObj_ne_nil (kv : Obj) : utf8Str (printObj kv) ≠ [] := by
  have hshape : ∃ tail, printObj kv = lbrace :: tail := by
    cases kv with
    | nil => exact ⟨[rbrace], rfl⟩
    | cons p ps => exact ⟨printMembers p ps, rfl⟩
  obtain ⟨tail, htail⟩ := hshape
  rw [htail, show utf8Str (lbrace :: tail) = utf8Char lbrace ++ utf8Str tail from rfl,
    show utf8Char lbrace = [123] from by decide]
  simp

/-- C8: for every key value (a last-evaluated-key attribute map produced by a
scan or query, without control characters, where the printed form matches the
JavaScript JSON.stringify), decoding the encoded page token yields the key
again: parsePageToken (formatPageToken k) = k, and an absent token encodes to
absent, meaning no more pages. -/
theorem pageToken_roundtrip (kv : Obj) (hvalid : validKey kv) :
    parsePageToken (formatPageToken (some kv)) = some (some kv) ∧
    formatPageToken none = none := by
  constructor
  · rw [show formatPageToken (some kv) = some (b64Enc (utf8Str (printObj kv))) from rfl]
    obtain ⟨x, xs, hxx⟩ : ∃ x xs, b64Enc (utf8Str (printObj kv)) = x :: xs := by
      cases hbe : b64Enc (utf8Str (printObj kv)) with
      | nil => exact absurd hbe (b64Enc_ne_nil _ (utf8Str_printObj_ne_nil kv))
      | cons x xs => exact ⟨x, xs, rfl⟩
    rw [hxx]
    have hstep : parsePageToken (some (x :: xs)) =
        (match b64Dec (x :: xs) with
        | none => none
        | some bytes =>
          match utf8Dec bytes with
          | none => none
          | some cs => (jsonParseObj cs).map some) := rfl
    rw [hstep, ← hxx, b64Dec_b64Enc _ (utf8Str_lt_256 _)]
    show (match utf8Dec (utf8Str (printObj kv)) with
      | none => none
      | some cs => (jsonParseObj cs).map some) = some (some kv)
    rw [utf8Dec_utf8Str]
    show (jsonParseObj (printObj kv)).map some = some (some kv)
    rw [jsonParseObj_print]
    rfl
  · rfl

/-- Witness for pageToken_roundtrip at a concrete one-attribute key. -/
theorem pageToken_roundtrip_witness :
    validKey [(['i', 'd'], JVal.str ['x'])] ∧
    parsePageToken (formatPageToken (some [(['i', 'd'], JVal.str ['x'])])) =
      some (some [(['i', 'd'], JVal.str ['x'])]) :=
  ⟨by decide, (pageToken_roundtrip [(['i', 'd'], JVal.str ['x'])] (by decide)).1⟩

theorem scanIterate_chain {α : Type} (scan : Option Str → PageResult α) :
    ∀ (pages : List (PageResult α)) (tok : Option Str), PageChain scan tok pages →
      ∀ extra, scanIterate scan (pages.length + extra) tok =
        (pages.map PageResult.items).flatten := by
  intro pages
  induction pages with
  | nil => intro tok h extra; exact absurd h (by simp [PageChain])
  | cons p ps ih =>
    intro tok h extra
    cases ps with
    | nil =>
      obtain ⟨hp, hnone⟩ := h
      simp only [List.length_cons, List.length_nil]
      rw [show 0 + 1 + extra = extra + 1 from by omega]
      simp only [scanIterate, hp, hnone]
      simp
    | cons q qs =>
      obtain ⟨hp, t, ht, hrest⟩ := h
      simp only [List.length_cons]
      rw [show qs.length + 1 + 1 + extra = (qs.length + 1 + extra) + 1 from by omega]
      simp only [scanIterate, hp, ht]
      have := ih (some t) hrest extra
      simp only [List.length_cons] at this
      rw [this]
      simp

theorem queryIterate_eq_scanIterate {α : Type} (query : Option Str → PageResult α) :
    ∀ fuel tok, queryIterate query fuel tok = scanIterate query fuel tok := by
  intro fuel
  induction fuel with
  | zero => intro tok; rfl
  | succ f ih =>
    intro tok
    simp only [queryIterate, scanIterate]
    cases h : (query tok).nextPageToken with
    | none => simp [h]
    | some t => simp [h, ih]

/-- C9: for every params and every store returning a finite sequence of pages
where only the last page carries no next-page token, scanIterator and
queryIterator yield exactly the concatenation of all pages' items in page
order, feed each returned nextPageToken into the next underlying scan/query
call (built into PageChain and the iterators), and terminate after the page
that returns no token (the result does not depend on any extra fuel beyond
the page count). -/
theorem iterator_pages {α : Type} (scan query : Option Str → PageResult α)
    (tok qtok : Option Str) (pages qpages : List (PageResult α))
    (hchain : PageChain scan tok pages) (hqchain : PageChain query qtok qpages) :
    (∀ extra, scanIterate scan (pages.length + extra) tok =
      (pages.map PageResult.items).flatten) ∧
    (∀ extra, queryIterate query (qpages.length + extra) qtok =
      (qpages.map PageResult.items).flatten) := by
  constructor
  · exact scanIterate_chain scan pages tok hchain
  · intro extra
    rw [queryIterate_eq_scanIterate]
    exact scanIterate_chain query qpages qtok hqchain extra

/-- Witness for iterator_pages on the spec's three-page scenario: pages
with items [1,2], [3], [4]; the two tokens are fed back and iteration stops
after the third page. -/
theorem iterator_pages_witness :
    scanIterate
      (fun tok =>
        if tok = none then ⟨[1, 2], some ['a']⟩
        else if tok = some ['a'] then ⟨[3], some ['b']⟩
        else ⟨[4], none⟩)
      3 none = ([1, 2, 3, 4] : List Nat) ∧
    queryIterate
      (fun tok =>
        if tok = none then ⟨[1, 2], some ['a']⟩
        else if tok = some ['a'] then ⟨[3], some ['b']⟩
        else ⟨[4], none⟩)
      3 none = ([1, 2, 3, 4] : List Nat) := by
  have hchain : PageChain
      (fun tok =>
        if tok = none then ⟨[1, 2], some ['a']⟩
        else if tok = some ['a'] then ⟨[3], some ['b']⟩
        else (⟨[4], none⟩ : PageResult Nat))
      none [⟨[1, 2], some ['a']⟩, ⟨[3], some ['b']⟩, ⟨[4], none⟩] := by
    refine ⟨by decide, ['a'], rfl, by decide, ['b'], rfl, by decide, rfl⟩
  have h := iterator_pages _ _ none none _ _ hchain hchain
  constructor
  · have := h.1 0
    simpa using this
  · have := h.2 0
    simpa using this
theorem atomicGo_step_ok {R : Type} (getItem : Nat → Option Obj)
    (action : Nat → ActionInput → AOutcome R) (rand : Nat → ℚ) (key : Obj) (ca : Str)
    (r a : Nat) (v : R)
    (h : action a ⟨key, getItem a, mkConds ca (getItem a)⟩ = AOutcome.ok v) :
    atomicGo getItem action rand key ca (r + 1) a =
      ([AEvent.fetch a (getItem a),
        AEvent.act a ⟨key, getItem a, mkConds ca (getItem a)⟩], AResult.ok v) := by
  simp only [atomicGo, h]

theorem atomicGo_step_ccf {R : Type} (getItem : Nat → Option Obj)
    (action : Nat → ActionInput → AOutcome R) (rand : Nat → ℚ) (key : Obj) (ca : Str)
    (r a : Nat) (e : JSErr)
    (h : action a ⟨key, getItem a, mkConds ca (getItem a)⟩ = AOutcome.exn e)
    (hccf : isConditionalCheckFailed e = true) :
    atomicGo getItem action rand key ca (r + 1) a =
      (AEvent.fetch a (getItem a) ::
        AEvent.act a ⟨key, getItem a, mkConds ca (getItem a)⟩ ::
        AEvent.delay a (rand a * 100) ::
        (atomicGo getItem action rand key ca r (a + 1)).1,
       (atomicGo getItem action rand key ca r (a + 1)).2) := by
  simp only [atomicGo, h, hccf, if_true]

theorem atomicGo_step_other {R : Type} (getItem : Nat → Option Obj)
    (action : Nat → ActionInput → AOutcome R) (rand : Nat → ℚ) (key : Obj) (ca : Str)
    (r a : Nat) (e : JSErr)
    (h : action a ⟨key, getItem a, mkConds ca (getItem a)⟩ = AOutcome.exn e)
    (hccf : isConditionalCheckFailed e = false) :
    atomicGo getItem action rand key ca (r + 1) a =
      ([AEvent.fetch a (getItem a),
        AEvent.act a ⟨key, getItem a, mkConds ca (getItem a)⟩], AResult.exn e) := by
  simp only [atomicGo, h, hccf]
  simp

theorem atomicGo_ccf_prefix {R : Type} (getItem : Nat → Option Obj)
    (action : Nat → ActionInput → AOutcome R) (rand : Nat → ℚ) (key : Obj) (ca : Str) :
    ∀ (k r a : Nat),
      (∀ i, i < k → ∃ e,
        action (a + i) ⟨key, getItem (a + i), mkConds ca (getItem (a + i))⟩ = AOutcome.exn e ∧
        isConditionalCheckFailed e = true) →
      ∃ pre,
        atomicGo getItem action rand key ca (k + r) a =
          (pre ++ (atomicGo getItem action rand key ca r (a + k)).1,
           (atomicGo getItem action rand key ca r (a + k)).2) ∧
        countFetch pre = k ∧ countAct pre = k ∧ countDelay pre = k ∧
        (∀ i, i < k → AEvent.delay (a + i) (rand (a + i) * 100) ∈ pre) := by
  intro k
  induction k with
  | zero =>
    intro r a _
    refine ⟨[], ?_, rfl, rfl, rfl, fun i hi => absurd hi (Nat.not_lt_zero i)⟩
    rw [Nat.zero_add, Nat.add_zero, List.nil_append]
  | succ k ih =>
    intro r a hccf
    have h0 := hccf 0 (by omega)
    rw [Nat.add_zero] at h0
    obtain ⟨e, he, heccf⟩ := h0
    have hstep := atomicGo_step_ccf getItem action rand key ca (k + r) a e he heccf
    have hrw : k + 1 + r = (k + r) + 1 := by omega
    obtain ⟨pre, hpre, hf, hact, hd, hdel⟩ := ih r (a + 1) (fun i hi => by
      have := hccf (i + 1) (by omega)
      have harw : a + (i + 1) = a + 1 + i := by omega
      rw [harw] at this
      exact this)
    refine ⟨AEvent.fetch a (getItem a) ::
      AEvent.act a ⟨key, getItem a, mkConds ca (getItem a)⟩ ::
      AEvent.delay a (rand a * 100) :: pre, ?_, ?_, ?_, ?_, ?_⟩
    · rw [hrw, hstep, hpre]
      have harw : a + 1 + k = a + (k + 1) := by omega
      rw [harw]
      simp
    · rw [show countFetch (AEvent.fetch a (getItem a) ::
        AEvent.act a ⟨key, getItem a, mkConds ca (getItem a)⟩ ::
        AEvent.delay a (rand a * 100) :: pre) = countFetch pre + 1 from by
        simp only [countFetch, List.countP_cons]; rfl]
      omega
    · rw [show countAct (AEvent.fetch a (getItem a) ::
        AEvent.act a ⟨key, getItem a, mkConds ca (getItem a)⟩ ::
        AEvent.delay a (rand a * 100) :: pre) = countAct pre + 1 from by
        simp only [countAct, List.countP_cons]; rfl]
      omega
    · rw [show countDelay (AEvent.fetch a (getItem a) ::
        AEvent.act a ⟨key, getItem a, mkConds ca (getItem a)⟩ ::
        AEvent.delay a (rand a * 100) :: pre) = countDelay pre + 1 from by
        simp only [countDelay, List.countP_cons]; rfl]
      omega
    · intro i hi
      cases i with
      | zero => simp
      | succ j =>
        have := hdel j (by omega)
        have harw : a + 1 + j = a + (j + 1) := by omega
        rw [harw] at this
        simp [this]

theorem atomicGo_fetch_head {R : Type} (getItem : Nat → Option Obj)
    (action : Nat → ActionInput → AOutcome R) (rand : Nat → ℚ) (key : Obj) (ca : Str)
    (r a : Nat) (hr : 0 < r) :
    AEvent.fetch a (getItem a) ∈ (atomicGo getItem action rand key ca r a).1 := by
  obtain ⟨s, rfl⟩ : ∃ s, r = s + 1 := ⟨r - 1, by omega⟩
  cases haction : action a ⟨key, getItem a, mkConds ca (getItem a)⟩ with
  | ok v => rw [atomicGo_step_ok getItem action rand key ca s a v haction]; simp
  | exn e =>
    cases hccf : isConditionalCheckFailed e with
    | true => rw [atomicGo_step_ccf getItem action rand key ca s a e haction hccf]; simp
    | false => rw [atomicGo_step_other getItem action rand key ca s a e haction hccf]; simp

theorem atomicGo_act_inputs {R : Type} (getItem : Nat → Option Obj)
    (action : Nat → ActionInput → AOutcome R) (rand : Nat → ℚ) (key : Obj) (ca : Str) :
    ∀ (r a i : Nat) (inp : ActionInput),
      AEvent.act i inp ∈ (atomicGo getItem action rand key ca r a).1 →
      inp = ⟨key, getItem i, mkConds ca (getItem i)⟩ := by
  intro r
  induction r with
  | zero => intro a i inp hmem; simp [atomicGo] at hmem
  | succ r ih =>
    intro a i inp hmem
    cases haction : action a ⟨key, getItem a, mkConds ca (getItem a)⟩ with
    | ok v =>
      rw [atomicGo_step_ok getItem action rand key ca r a v haction] at hmem
      simp at hmem
      obtain ⟨rfl, rfl⟩ := hmem
      rfl
    | exn e =>
      cases hccf : isConditionalCheckFailed e with
      | true =>
        rw [atomicGo_step_ccf getItem action rand key ca r a e haction hccf] at hmem
        simp at hmem
        rcases hmem with ⟨rfl, rfl⟩ | hmem
        · rfl
        · exact ih (a + 1) i inp hmem
      | false =>
        rw [atomicGo_step_other getItem action rand key ca r a e haction hccf] at hmem
        simp at hmem
        obtain ⟨rfl, rfl⟩ := hmem
        rfl

/-- C1: if the action fails with a conditional-check-failed error on every
attempt, atomicAction performs exactly maxAttempts attempts (each attempt one
fetch followed by one action invocation) and then fails with the exhaustion
error, never more nor fewer. -/
theorem atomicAction_exhaustion {R : Type} (getItem : Nat → Option Obj)
    (action : Nat → ActionInput → AOutcome R) (rand : Nat → ℚ) (key : Obj) (ca : Str)
    (maxAttempts : Option Nat)
    (hccf : ∀ i inp, ∃ e, action i inp = AOutcome.exn e ∧ isConditionalCheckFailed e = true) :
    (atomicAction getItem action rand key ca maxAttempts).2 = AResult.exhausted ∧
    countFetch (atomicAction getItem action rand key ca maxAttempts).1 = maxAttempts.getD 5 ∧
    countAct (atomicAction getItem action rand key ca maxAttempts).1 = maxAttempts.getD 5 := by
  obtain ⟨pre, hpre, hf, hact, hd, _⟩ :=
    atomicGo_ccf_prefix getItem action rand key ca (maxAttempts.getD 5) 0 0
      (fun i _ => hccf (0 + i) ⟨key, getItem (0 + i), mkConds ca (getItem (0 + i))⟩)
  rw [Nat.add_zero] at hpre
  unfold atomicAction
  rw [hpre]
  refine ⟨rfl, ?_, ?_⟩
  · rw [show (atomicGo getItem action rand key ca 0 (0 + maxAttempts.getD 5)).1 = [] from rfl,
      List.append_nil]
    exact hf
  · rw [show (atomicGo getItem action rand key ca 0 (0 + maxAttempts.getD 5)).1 = [] from rfl,
      List.append_nil]
    exact hact

/-- Witness for atomicAction_exhaustion: an action that always throws the
conditional-check error, maxAttempts 3: exhausted after exactly 3 fetches and
3 invocations. -/
theorem atomicAction_exhaustion_witness :
    (atomicAction (fun _ => none) (fun _ _ => AOutcome.exn ⟨ccfName⟩) (fun _ => 0)
      [] ['v'] (some 3) : List AEvent × AResult Unit).2 = AResult.exhausted ∧
    countFetch (atomicAction (fun _ => none) (fun _ _ => AOutcome.exn ⟨ccfName⟩)
      (fun _ => 0) [] ['v'] (some 3) : List AEvent × AResult Unit).1 = 3 ∧
    countAct (atomicAction (fun _ => none) (fun _ _ => AOutcome.exn ⟨ccfName⟩)
      (fun _ => 0) [] ['v'] (some 3) : List AEvent × AResult Unit).1 = 3 :=
  atomicAction_exhaustion _ _ _ _ _ _
    (fun _ _ => ⟨⟨ccfName⟩, rfl, by decide⟩)

/-- C2: within atomicAction, when every earlier attempt failed with a
conditional-check error and attempt `a` is reached: a non-conditional error
thrown by the action aborts immediately — the result is that very error,
exactly a+1 action invocations happened, and no delay follows attempt a; a
conditional-check error leads to a Math.random()*100 delay and, when attempts
remain, a retry starting with the next fetch; the delay lies in [0,100) since
Math.random() draws from [0,1). -/
theorem atomicAction_retry_or_abort {R : Type} (getItem : Nat → Option Obj)
    (action : Nat → ActionInput → AOutcome R) (rand : Nat → ℚ) (key : Obj) (ca : Str)
    (maxAttempts : Option Nat) (a : Nat)
    (hprev : ∀ i, i < a → ∃ e,
      action i ⟨key, getItem i, mkConds ca (getItem i)⟩ = AOutcome.exn e ∧
      isConditionalCheckFailed e = true)
    (ha : a < maxAttempts.getD 5) :
    (∀ e, action a ⟨key, getItem a, mkConds ca (getItem a)⟩ = AOutcome.exn e →
      isConditionalCheckFailed e = false →
      (atomicAction getItem action rand key ca maxAttempts).2 = AResult.exn e ∧
      countAct (atomicAction getItem action rand key ca maxAttempts).1 = a + 1 ∧
      countDelay (atomicAction getItem action rand key ca maxAttempts).1 = a) ∧
    (∀ e, action a ⟨key, getItem a, mkConds ca (getItem a)⟩ = AOutcome.exn e →
      isConditionalCheckFailed e = true →
      AEvent.delay a (rand a * 100) ∈ (atomicAction getItem action rand key ca maxAttempts).1 ∧
      (a + 1 < maxAttempts.getD 5 →
        AEvent.fetch (a + 1) (getItem (a + 1)) ∈
          (atomicAction getItem action rand key ca maxAttempts).1) ∧
      (0 ≤ rand a → rand a < 1 → 0 ≤ rand a * 100 ∧ rand a * 100 < 100)) := by
  obtain ⟨s, hs⟩ : ∃ s, maxAttempts.getD 5 - a = s + 1 := ⟨maxAttempts.getD 5 - a - 1, by omega⟩
  obtain ⟨pre, hpre, hf, hact, hd, _⟩ :=
    atomicGo_ccf_prefix getItem action rand key ca a (maxAttempts.getD 5 - a) 0
      (fun i hi => by
        have := hprev i hi
        rw [Nat.zero_add]
        exact this)
  have hm : a + (maxAttempts.getD 5 - a) = maxAttempts.getD 5 := by omega
  rw [Nat.zero_add] at hpre
  rw [hm] at hpre
  have hmain : atomicAction getItem action rand key ca maxAttempts =
      (pre ++ (atomicGo getItem action rand key ca (maxAttempts.getD 5 - a) a).1,
       (atomicGo getItem action rand key ca (maxAttempts.getD 5 - a) a).2) := hpre
  constructor
  · intro e he hccf
    have hstep := atomicGo_step_other getItem action rand key ca s a e he hccf
    rw [hs] at hmain
    rw [hmain, hstep]
    refine ⟨rfl, ?_, ?_⟩
    · rw [show countAct (pre ++ [AEvent.fetch a (getItem a),
        AEvent.act a ⟨key, getItem a, mkConds ca (getItem a)⟩]) = countAct pre + 1 from by
        simp only [countAct, List.countP_append, List.countP_cons]; rfl]
      omega
    · rw [show countDelay (pre ++ [AEvent.fetch a (getItem a),
        AEvent.act a ⟨key, getItem a, mkConds ca (getItem a)⟩]) = countDelay pre from by
        simp only [countDelay, List.countP_append, List.countP_cons]; rfl]
      exact hd
  · intro e he hccf
    have hstep := atomicGo_step_ccf getItem action rand key ca s a e he hccf
    rw [hs] at hmain
    rw [hmain, hstep]
    refine ⟨?_, ?_, ?_⟩
    · simp
    · intro hlt
      have hfetch : AEvent.fetch (a + 1) (getItem (a + 1)) ∈
          (atomicGo getItem action rand key ca s (a + 1)).1 :=
        atomicGo_fetch_head getItem action rand key ca s (a + 1) (by omega)
      simp [hfetch]
    · intro h0 h1
      constructor
      · positivity
      · have := mul_lt_mul_of_pos_right h1 (show (0 : ℚ) < 100 from by norm_num)
        simpa using this

/-- Witness for atomicAction_retry_or_abort: the action throws the
conditional-check error on attempt 0 and a validation error on attempt 1;
with maxAttempts 3 the run stops at attempt 1 with that error, after 2
invocations and 1 delay. -/
theorem atomicAction_retry_or_abort_witness :
    ((atomicAction (fun _ => none)
      (fun i _ => if i = 0 then AOutcome.exn ⟨ccfName⟩ else AOutcome.exn ⟨['B']⟩)
      (fun _ => 0) [] ['v'] (some 3) : List AEvent × AResult Unit).2 =
        AResult.exn ⟨['B']⟩ ∧
      countAct (atomicAction (fun _ => none)
        (fun i _ => if i = 0 then AOutcome.exn ⟨ccfName⟩ else AOutcome.exn ⟨['B']⟩)
        (fun _ => 0) [] ['v'] (some 3) : List AEvent × AResult Unit).1 = 1 + 1 ∧
      countDelay (atomicAction (fun _ => none)
        (fun i _ => if i = 0 then AOutcome.exn ⟨ccfName⟩ else AOutcome.exn ⟨['B']⟩)
        (fun _ => 0) [] ['v'] (some 3) : List AEvent × AResult Unit).1 = 1) :=
  (atomicAction_retry_or_abort (fun _ => none)
      (fun i _ => if i = 0 then AOutcome.exn ⟨ccfName⟩ else AOutcome.exn ⟨['B']⟩)
      (fun _ => 0) [] ['v'] (some 3) 1
      (fun i hi => by
        have : i = 0 := by omega
        subst this
        exact ⟨⟨ccfName⟩, rfl, by decide⟩)
      (by decide)).1 ⟨['B']⟩ rfl (by decide)

/-- C3 counterexample: an item that exists and has the condition attribute
with value null; the claim as stated requires an equality condition with the
current value (null), but the code's `??` yields attributeNotExists. -/
theorem atomicAction_condition_counterexample :
    lookupJ [(['v'], JVal.null)] ['v'] = some JVal.null ∧
    mkConds ['v'] (some [(['v'], JVal.null)]) = [(['v'], ACond.attributeNotExists)] ∧
    mkConds ['v'] (some [(['v'], JVal.null)]) ≠ [(['v'], ACond.eq JVal.null)] := by
  decide

/-- C3 amended: on every atomicAction attempt the conditions object passed to
the action has exactly one entry for conditionAttribute; it is equality with
the attribute's current value when the fetched item exists and holds that
attribute with a non-null value, and attributeNotExists otherwise (item
absent, attribute absent, or attribute null).  The last conjunct ties the
characterisation to the loop: every action invocation inside atomicGo
receives exactly key, the fetched item and mkConds over them. -/
theorem atomicAction_condition_amended (ca : Str) (item : Option Obj) :
    (mkConds ca item).length = 1 ∧
    (item = none → mkConds ca item = [(ca, ACond.attributeNotExists)]) ∧
    (∀ it, item = some it → lookupJ it ca = none →
      mkConds ca item = [(ca, ACond.attributeNotExists)]) ∧
    (∀ it, item = some it → lookupJ it ca = some JVal.null →
      mkConds ca item = [(ca, ACond.attributeNotExists)]) ∧
    (∀ it v, item = some it → lookupJ it ca = some v → v ≠ JVal.null →
      mkConds ca item = [(ca, ACond.eq v)]) ∧
    (∀ (R : Type) (getItem : Nat → Option Obj) (action : Nat → ActionInput → AOutcome R)
      (rand : Nat → ℚ) (key : Obj) (r a i : Nat) (inp : ActionInput),
      AEvent.act i inp ∈ (atomicGo getItem action rand key ca r a).1 →
      inp = ⟨key, getItem i, mkConds ca (getItem i)⟩) := by
  refine ⟨?_, ?_, ?_, ?_, ?_, ?_⟩
  · cases item with
    | none => rfl
    | some it =>
      simp only [mkConds]
      rfl
  · intro h; subst h; rfl
  · intro it h hl; subst h; simp [mkConds, hl]
  · intro it h hl; subst h; simp [mkConds, hl]
  · intro it v h hl hv
    subst h
    simp only [mkConds, hl]
  · intro R getItem action rand key r a i inp hmem
    exact atomicGo_act_inputs getItem action rand key ca r a i inp hmem

/-- Witness for atomicAction_condition_amended: a present non-null value
gives an equality condition; an absent item gives attributeNotExists. -/
theorem atomicAction_condition_amended_witness :
    mkConds ['v'] (some [(['v'], JVal.num 7)]) = [(['v'], ACond.eq (JVal.num 7))] ∧
    mkConds ['v'] none = [(['v'], ACond.attributeNotExists)] :=
  ⟨(atomicAction_condition_amended ['v'] (some [(['v'], JVal.num 7)])).2.2.2.2.1
      [(['v'], JVal.num 7)] (JVal.num 7) rfl (by decide) (by decide),
    (atomicAction_condition_amended ['v'] none).2.1 rfl⟩

/-- C4 (code bug): the library intends condition-check sub-requests never to
fire triggers while the rest of the transaction commits and fires normally,
but parseRequest throws Error('Invalid request') on the ConditionCheck shape,
so a successfully committed transaction containing a condition check aborts
its trigger dispatch and commit rejects after the store succeeded.  Evaluated
at a transaction of one Put and one ConditionCheck on table T: only the put's
trigger fires and the dispatch error escapes. -/
theorem transaction_conditionCheck_dispatch_bug :
    dispatchTriggers (fun _ => some ⟨[['i', 'd']], [0]⟩)
      [DReq.putR ['T'] [(['i', 'd'], JVal.num 1)],
       DReq.condR ['T'] [(['i', 'd'], JVal.num 2)]] =
      ([⟨0, [(['i', 'd'], JVal.num 1)], TriggerCommand.put⟩], some invalidRequestMsg) ∧
    (commitWrite none (fun _ => some ⟨[['i', 'd']], [0]⟩)
      [DReq.putR ['T'] [(['i', 'd'], JVal.num 1)],
       DReq.condR ['T'] [(['i', 'd'], JVal.num 2)]] none).thrown =
      some (CommitThrown.dispatch invalidRequestMsg) ∧
    parseRequest (DReq.condR ['T'] [(['i', 'd'], JVal.num 2)]) =
      Except.error invalidRequestMsg := by
  refine ⟨rfl, rfl, rfl⟩

/-- C5: when a write transaction's commit fails on the store side because at
least one condition failed (a TransactionCanceledException carrying a
ConditionalCheckFailed cancellation reason), no trigger fires, the error is
rethrown to the caller and stored, conditionalCheckFailed() then returns
true; and conditionalCheckFailed returns true only when the stored error is a
transaction-cancelled error with at least one ConditionalCheckFailed
cancellation reason. -/
theorem transaction_condition_failure (items : List DReq)
    (modelMap : Str → Option ModelInfo) (e : TxErr) (prevErr : Option TxErr)
    (hname : e.name = tceName)
    (hreason : ∃ rs, e.cancellationReasons = some rs ∧ ∃ r ∈ rs, r.code = some ccfCode) :
    (commitWrite (some e) modelMap items prevErr).triggers = [] ∧
    (commitWrite (some e) modelMap items prevErr).thrown = some (CommitThrown.store e) ∧
    (commitWrite (some e) modelMap items prevErr).err = some e ∧
    conditionalCheckFailed (commitWrite (some e) modelMap items prevErr).err = true ∧
    (∀ err : Option TxErr, conditionalCheckFailed err = true →
      ∃ e2, err = some e2 ∧ isTransactionCancelled e2 = true ∧
        ∃ rs, e2.cancellationReasons = some rs ∧ ∃ r ∈ rs, r.code = some ccfCode) := by
  refine ⟨rfl, rfl, rfl, ?_, ?_⟩
  · obtain ⟨rs, hrs, r, hr, hcode⟩ := hreason
    show conditionalCheckFailedErr e = true
    unfold conditionalCheckFailedErr isTransactionCancelled
    rw [hrs]
    simp only [Bool.and_eq_true, decide_eq_true_eq, List.any_eq_true]
    exact ⟨hname, r, hr, by simp [hcode]⟩
  · intro err h
    cases err with
    | none => exact absurd h (by simp [conditionalCheckFailed])
    | some e2 =>
      refine ⟨e2, rfl, ?_, ?_⟩
      · have hthis : conditionalCheckFailedErr e2 = true := h
        unfold conditionalCheckFailedErr at hthis
        simp only [Bool.and_eq_true] at hthis
        exact hthis.1
      · have hcc : conditionalCheckFailedErr e2 = true := h
        unfold conditionalCheckFailedErr at hcc
        simp only [Bool.and_eq_true] at hcc
        have h2 := hcc.2
        cases hr : e2.cancellationReasons with
        | none => rw [hr] at h2; exact absurd h2 (by simp)
        | some rs =>
          rw [hr] at h2
          simp only [List.any_eq_true, decide_eq_true_eq] at h2
          obtain ⟨r, hrmem, hrcode⟩ := h2
          exact ⟨rs, rfl, r, hrmem, hrcode⟩

/-- Witness for transaction_condition_failure at a concrete cancelled
transaction: one Put on table T and a TransactionCanceledException with one
ConditionalCheckFailed reason. -/
theorem transaction_condition_failure_witness :
    (commitWrite (some ⟨tceName, some [⟨some ccfCode⟩]⟩)
      (fun _ => some ⟨[['i', 'd']], [0]⟩)
      [DReq.putR ['T'] [(['i', 'd'], JVal.num 1)]] none).triggers = [] ∧
    conditionalCheckFailed
      (commitWrite (some ⟨tceName, some [⟨some ccfCode⟩]⟩)
        (fun _ => some ⟨[['i', 'd']], [0]⟩)
        [DReq.putR ['T'] [(['i', 'd'], JVal.num 1)]] none).err = true := by
  have h := transaction_condition_failure
    [DReq.putR ['T'] [(['i', 'd'], JVal.num 1)]]
    (fun _ => some ⟨[['i', 'd']], [0]⟩)
    ⟨tceName, some [⟨some ccfCode⟩]⟩ none rfl
    ⟨[⟨some ccfCode⟩], rfl, ⟨some ccfCode⟩, List.mem_cons_self _ _, rfl⟩
  exact ⟨h.1, h.2.2.2.1⟩

theorem reqKeyStr_shaped (m : ModelInfo) (r : DReq) (h : batchShaped r) :
    (reqKeyStr m r).isSome = true := by
  cases r with
  | putR tn item => rfl
  | deleteR tn key => rfl
  | updateR tn key => exact h.elim
  | condR tn key => exact h.elim

theorem mapM_reqKeyStr (m : ModelInfo) :
    ∀ urs : List DReq, (∀ u ∈ urs, batchShaped u) →
      urs.mapM (fun r => reqKeyStr m r) = some (urs.filterMap (fun u => reqKeyStr m u)) := by
  intro urs
  induction urs with
  | nil => intro _; rfl
  | cons u rest ih =>
    intro h
    have hu := reqKeyStr_shaped m u (h u (List.mem_cons_self _ _))
    obtain ⟨s, hs⟩ := Option.isSome_iff_exists.mp hu
    rw [List.mapM_cons, hs, ih (fun x hx => h x (List.mem_cons_of_mem _ hx))]
    simp [List.filterMap_cons, hs]

theorem lookupRM_mem (rm : RequestMap) (tn : Str) (rs : List DReq)
    (h : lookupRM rm tn = some rs) : ∃ tn2, (tn2, rs) ∈ rm := by
  induction rm with
  | nil => exact absurd h (by simp [lookupRM])
  | cons p rest ih =>
    obtain ⟨tn2, rs2⟩ := p
    by_cases he : tn2 = tn
    · subst he
      simp only [lookupRM, if_pos rfl] at h
      injection h with h
      exact ⟨tn2, by simp [h]⟩
    · simp only [lookupRM, if_neg he] at h
      obtain ⟨tn3, hmem⟩ := ih h
      exact ⟨tn3, List.mem_cons_of_mem _ hmem⟩

theorem procRequests_spec (m : ModelInfo) (nkv : Option (List Str)) :
    ∀ rs : List DReq, (∀ r ∈ rs, batchShaped r) →
      ∃ ts is, procRequests m nkv rs = some (ts, is) ∧
        ts = rs.flatMap (fun r =>
          match parseRequest r with
          | Except.error _ => []
          | Except.ok (_, key, cmd) =>
            if strMemOpt nkv (printKeyValues (getKeyValues key m.keyAttributes)) then []
            else m.triggers.map (fun t => ⟨t, key, cmd⟩)) := by
  intro rs
  induction rs with
  | nil => exact fun _ => ⟨[], [], rfl, rfl⟩
  | cons r rest ih =>
    intro h
    obtain ⟨ts, is, hp, hp1⟩ := ih (fun x hx => h x (List.mem_cons_of_mem _ hx))
    have hr := h r (List.mem_cons_self _ _)
    cases r with
    | putR tn item =>
      cases hmem : strMemOpt nkv (printKeyValues (getKeyValues item m.keyAttributes)) with
      | true =>
        refine ⟨ts, is, ?_, ?_⟩
        · simp only [procRequests, parseRequest, hp, hmem, if_true]
        · rw [List.flatMap_cons, hp1]
          simp [parseRequest, hmem]
      | false =>
        refine ⟨m.triggers.map (fun t => ⟨t, item, TriggerCommand.put⟩) ++ ts,
          (TriggerCommand.put, item) :: is, ?_, ?_⟩
        · simp only [procRequests, parseRequest, hp, hmem]
          simp
        · rw [List.flatMap_cons, hp1]
          simp [parseRequest, hmem]
    | deleteR tn key =>
      cases hmem : strMemOpt nkv (printKeyValues (getKeyValues key m.keyAttributes)) with
      | true =>
        refine ⟨ts, is, ?_, ?_⟩
        · simp only [procRequests, parseRequest, hp, hmem, if_true]
        · rw [List.flatMap_cons, hp1]
          simp [parseRequest, hmem]
      | false =>
        refine ⟨m.triggers.map (fun t => ⟨t, key, TriggerCommand.delete⟩) ++ ts,
          (TriggerCommand.delete, key) :: is, ?_, ?_⟩
        · simp only [procRequests, parseRequest, hp, hmem]
          simp
        · rw [List.flatMap_cons, hp1]
          simp [parseRequest, hmem]
    | updateR tn key => exact hr.elim
    | condR tn key => exact hr.elim

theorem execTables_spec (modelMap : Str → ModelInfo) (resp : Option RequestMap)
    (hresp : ∀ p ∈ resp.getD [], ∀ r ∈ p.2, batchShaped r) :
    ∀ requestMap : RequestMap, (∀ p ∈ requestMap, ∀ r ∈ p.2, batchShaped r) →
      ∃ ts is, execTables modelMap resp requestMap = some (ts, is) ∧
        ts = requestMap.flatMap (fun tr =>
          tr.2.flatMap (fun r =>
            match parseRequest r with
            | Except.error _ => []
            | Except.ok (_, key, cmd) =>
              if strMemOpt
                  ((resp.bind (fun rm => lookupRM rm tr.1)).map
                    (fun urs => urs.filterMap (fun u => reqKeyStr (modelMap tr.1) u)))
                  (printKeyValues (getKeyValues key (modelMap tr.1).keyAttributes)) then []
              else (modelMap tr.1).triggers.map (fun t => ⟨t, key, cmd⟩))) := by
  intro requestMap
  induction requestMap with
  | nil => exact fun _ => ⟨[], [], rfl, rfl⟩
  | cons tr rest ih =>
    intro h
    obtain ⟨tn, requests⟩ := tr
    obtain ⟨ts2, is2, hrest, hrest1⟩ := ih (fun x hx => h x (List.mem_cons_of_mem _ hx))
    have hshaped : ∀ r ∈ requests, batchShaped r := h (tn, requests) (List.mem_cons_self _ _)
    cases hbind : resp.bind (fun rm => lookupRM rm tn) with
    | none =>
      obtain ⟨ts1, is1, hproc, hproc1⟩ := procRequests_spec (modelMap tn) none requests hshaped
      refine ⟨ts1 ++ ts2, is1 ++ is2, ?_, ?_⟩
      · simp only [execTables, hbind, hproc, hrest]
      · rw [List.flatMap_cons, hrest1, hproc1, hbind]
        rfl
    | some urs =>
      have hurshape : ∀ u ∈ urs, batchShaped u := by
        cases hre : resp with
        | none => rw [hre] at hbind; exact absurd hbind (by simp)
        | some rm =>
          rw [hre] at hbind
          simp only [Option.some_bind] at hbind
          obtain ⟨tn2, hmem⟩ := lookupRM_mem rm tn urs hbind
          intro u hu
          have := hresp (tn2, urs) (by rw [hre]; exact hmem)
          exact this u hu
      obtain ⟨ts1, is1, hproc, hproc1⟩ := procRequests_spec (modelMap tn)
        (some (urs.filterMap (fun u => reqKeyStr (modelMap tn) u))) requests hshaped
      refine ⟨ts1 ++ ts2, is1 ++ is2, ?_, ?_⟩
      · simp only [execTables, hbind, mapM_reqKeyStr (modelMap tn) urs hurshape,
          Option.map_some', hproc, hrest]
      · rw [List.flatMap_cons, hrest1, hproc1, hbind]
        rfl

/-- C6: for every batch write execute where the store marks some requests
unprocessed: triggers fire exactly for the requests of the pre-call request
map that are not present in the returned unprocessed map, matched per table
on the JSON-serialised key-attribute values; the unprocessed requests replace
the internal request map, so a subsequent execute() resubmits only them; and
the returned done flag is true iff no unprocessed request remains. -/
theorem batch_write_execute (requestMap : RequestMap) (modelMap : Str → ModelInfo)
    (resp : Option RequestMap)
    (hreq : ∀ p ∈ requestMap, ∀ r ∈ p.2, batchShaped r)
    (hresp : ∀ p ∈ resp.getD [], ∀ r ∈ p.2, batchShaped r)
    (hwf : ∀ p ∈ resp.getD [], p.2 ≠ []) :
    ∃ res, executeBatchWrite requestMap modelMap resp = some res ∧
      res.triggers = requestMap.flatMap (fun tr =>
        tr.2.flatMap (fun r =>
          match parseRequest r with
          | Except.error _ => []
          | Except.ok (_, key, cmd) =>
            if strMemOpt
                ((resp.bind (fun rm => lookupRM rm tr.1)).map
                  (fun urs => urs.filterMap (fun u => reqKeyStr (modelMap tr.1) u)))
                (printKeyValues (getKeyValues key (modelMap tr.1).keyAttributes)) then []
            else (modelMap tr.1).triggers.map (fun t => ⟨t, key, cmd⟩))) ∧
      res.newRequestMap = resp.getD [] ∧
      (res.done = true ↔ ¬∃ p ∈ res.newRequestMap, ∃ r, r ∈ p.2) := by
  obtain ⟨ts, is, hexec, hts⟩ := execTables_spec modelMap resp hresp requestMap hreq
  refine ⟨⟨ts, is, resp.getD [], (resp.getD []).isEmpty⟩, ?_, hts, rfl, ?_⟩
  · unfold executeBatchWrite
    rw [hexec]
    rfl
  · show (resp.getD []).isEmpty = true ↔ _
    constructor
    · intro hempty
      rw [List.isEmpty_iff] at hempty
      rw [hempty]
      rintro ⟨p, hp, -⟩
      exact absurd hp (List.not_mem_nil p)
    · intro hno
      cases hl : resp.getD [] with
      | nil => rfl
      | cons p ps =>
        exfalso
        have hne := hwf p (by rw [hl]; exact List.mem_cons_self _ _)
        obtain ⟨r, hr⟩ : ∃ r, r ∈ p.2 := by
          cases hp2 : p.2 with
          | nil => exact absurd hp2 hne
          | cons r rest => exact ⟨r, List.mem_cons_self _ _⟩
        exact hno ⟨p, by rw [hl]; exact List.mem_cons_self _ _, r, hr⟩

/-- Witness for batch_write_execute on the spec's resumption scenario: table
T with items X (id "x") and Y (id "y"); the store marks X unprocessed.
Exactly Y's trigger fires, the new request map holds only X, and done is
false. -/
theorem batch_write_execute_witness :
    ∃ res, executeBatchWrite
        [(['T'], [DReq.putR ['T'] [(['i', 'd'], JVal.str ['x'])],
                  DReq.putR ['T'] [(['i', 'd'], JVal.str ['y'])]])]
        (fun _ => ⟨[['i', 'd']], [0]⟩)
        (some [(['T'], [DReq.putR ['T'] [(['i', 'd'], JVal.str ['x'])]])]) = some res ∧
      res.triggers = [⟨0, [(['i', 'd'], JVal.str ['y'])], TriggerCommand.put⟩] ∧
      res.newRequestMap = [(['T'], [DReq.putR ['T'] [(['i', 'd'], JVal.str ['x'])]])] ∧
      res.done = false := by
  obtain ⟨res, hres, hts, hmap, hdone⟩ := batch_write_execute
    [(['T'], [DReq.putR ['T'] [(['i', 'd'], JVal.str ['x'])],
              DReq.putR ['T'] [(['i', 'd'], JVal.str ['y'])]])]
    (fun _ => ⟨[['i', 'd']], [0]⟩)
    (some [(['T'], [DReq.putR ['T'] [(['i', 'd'], JVal.str ['x'])]])])
    (by decide) (by decide) (by decide)
  refine ⟨res, hres, ?_, hmap, ?_⟩
  · rw [hts]
    decide
  · cases hd : res.done with
    | false => rfl
    | true =>
      exfalso
      have := hdone.mp hd
      rw [hmap] at this
      exact this ⟨(['T'], [DReq.putR ['T'] [(['i', 'd'], JVal.str ['x'])]]),
        List.mem_cons_self _ _, DReq.putR ['T'] [(['i', 'd'], JVal.str ['x'])],
        List.mem_cons_self _ _⟩
